import Mathlib

/-!
# Verification of the gzstd seekable-zstd core (seek table, encoder, decoder)

Shallow embedding of the Go sources in `src/gzstd` (`seektable.go`,
`encoder.go`, `decoder.go`).  Bytes are modelled as natural numbers `< 256`,
machine integers as `Nat` with explicit reductions modulo `2^32` / `2^64`
where the Go code performs conversions or can wrap.  Loops are modelled by
structural recursion on an explicit fuel argument; every call site passes a
fuel that is provably sufficient (each loop iteration of the corresponding
Go loop makes at least one unit of progress against that fuel).
-/

namespace GZstd

/-- `2^32`, the modulus of Go's `uint32`. -/
def U32 : Nat := 4294967296

/-- `2^64`, the modulus of Go's `uint64`. -/
def U64 : Nat := 18446744073709551616

/-- Constant `SKIPPABLE_MAGIC_NUMBER = 0x184D2A5F` from `seektable.go`. -/
def SKIPPABLE_MAGIC_NUMBER : Nat := 0x184D2A5F

/-- Constant `SEEKABLE_MAGIC_NUMBER = 0x8F92EAB1` from `seektable.go`. -/
def SEEKABLE_MAGIC_NUMBER : Nat := 0x8F92EAB1

/-- Constant `SKIPPABLE_HEADER_SIZE = 8` from `seektable.go`. -/
def SKIPPABLE_HEADER_SIZE : Nat := 8

/-- Constant `SEEK_TABLE_FOOTER_SIZE = 9` from `seektable.go`. -/
def SEEK_TABLE_FOOTER_SIZE : Nat := 9

/-- Constant `SIZE_PER_FRAME = 17` from `seektable.go`. -/
def SIZE_PER_FRAME : Nat := 17

/-- Constant `SEEKABLE_MAX_FRAMES = 0x8000000` from `seektable.go`. -/
def SEEKABLE_MAX_FRAMES : Nat := 0x8000000

/-- Constant `MAX_FRAME_SIZE = 1 << 32` from `encoder.go`. -/
def MAX_FRAME_SIZE : Nat := 4294967296

/-- The error values surfaced by the gzstd core
(`ErrFrameIndexTooLarge`, `ErrCorrupted`, `ErrInvalidMagic`,
`"no seek table found"`, `"invalid whence"`, `"invalid integrity size"`). -/
inductive Err where
  | frameIndexTooLarge
  | corrupted
  | invalidMagic
  | noSeekTable
  | invalidWhence
  | invalidIntegritySize
deriving DecidableEq, Repr

/-- Go `binary.LittleEndian.PutUint32`: the 4 little-endian bytes of `n`
(as a `uint32` value, i.e. reduced `% 2^32` by construction of the output). -/
def le32 (n : Nat) : List Nat :=
  [n % 256, n / 256 % 256, n / 65536 % 256, n / 16777216 % 256]

/-- Go `binary.LittleEndian.Uint32`: read 4 little-endian bytes from the
front of a byte list (missing bytes read as 0, which is unreachable at the
guarded call sites in the source). -/
def get32 (bs : List Nat) : Nat :=
  bs.getD 0 0 + 256 * bs.getD 1 0 + 65536 * bs.getD 2 0 + 16777216 * bs.getD 3 0

@[simp] theorem le32_length (n : Nat) : (le32 n).length = 4 := rfl

theorem get32_le32 (n : Nat) : get32 (le32 n) = n % U32 := by
  simp only [le32, get32, List.getD_cons_zero, List.getD_cons_succ, U32]
  omega

theorem get32_le32_of_lt {n : Nat} (h : n < U32) : get32 (le32 n) = n := by
  rw [get32_le32, Nat.mod_eq_of_lt h]

theorem get32_append (a b : List Nat) (h : a.length = 4) :
    get32 (a ++ b) = get32 a := by
  match a, h with
  | [x0, x1, x2, x3], _ => simp [get32, List.getD]

/-- Go `(a - b)` on `uint64` operands: wrapping subtraction modulo `2^64`
(written as the usual two's-complement case split, which equals
`(2^64 + a - b) % 2^64` for operands below `2^64`). -/
def wsub64 (a b : Nat) : Nat :=
  if b % U64 ≤ a % U64 then a % U64 - b % U64 else U64 + a % U64 - b % U64

theorem wsub64_eq {a b : Nat} (hb : b ≤ a) (ha : a < U64) : wsub64 a b = a - b := by
  have hb' : b < U64 := lt_of_le_of_lt hb ha
  rw [wsub64, Nat.mod_eq_of_lt ha, Nat.mod_eq_of_lt hb', if_pos hb]

/-- `Format` from `seektable.go`: position of the integrity record. -/
inductive Format where
  | head
  | foot
deriving DecidableEq, Repr

/-- `Entry` from `seektable.go`: one boundary of the seek table,
both offsets being Go `uint64` values. -/
structure Entry where
  compressedOffset : Nat
  decompressedOffset : Nat
deriving DecidableEq, Repr

/-- `Frame` from `seektable.go`: per-frame sizes, Go `uint32` values. -/
structure Frame where
  compressedSize : Nat
  decompressedSize : Nat
deriving DecidableEq, Repr

/-- `SeekTable` from `seektable.go`. -/
structure SeekTable where
  entries : List Entry
deriving DecidableEq, Repr

/-- `NewSeekTable`: a single sentinel entry `(0, 0)`. -/
def newSeekTable : SeekTable := ⟨[⟨0, 0⟩]⟩

/-- `SeekTable.NumFrames`: `uint32(len(entries) - 1)`. -/
def SeekTable.numFrames (st : SeekTable) : Nat := (st.entries.length - 1) % U32

/-- `SeekTable.LogFrame`: append cumulative offsets (uint64 addition wraps
modulo `2^64`); fails with `FrameIndexTooLarge` when the table already holds
`SEEKABLE_MAX_FRAMES` frames.  The Go arguments are `uint32`; call sites pass
values `< 2^32`. -/
def SeekTable.logFrame (st : SeekTable) (compressedSize decompressedSize : Nat) :
    Except Err SeekTable :=
  if st.numFrames ≥ SEEKABLE_MAX_FRAMES then .error .frameIndexTooLarge
  else
    let last := st.entries.getLastD ⟨0, 0⟩
    .ok ⟨st.entries ++ [⟨(last.compressedOffset + compressedSize) % U64,
                         (last.decompressedOffset + decompressedSize) % U64⟩]⟩

/-- `SeekTable.FrameStartComp`: bounds-checked entry lookup. -/
def SeekTable.frameStartComp (st : SeekTable) (index : Nat) : Except Err Nat :=
  if index ≥ st.numFrames then .error .frameIndexTooLarge
  else .ok (st.entries.getD index ⟨0, 0⟩).compressedOffset

/-- `SeekTable.FrameStartDecomp`. -/
def SeekTable.frameStartDecomp (st : SeekTable) (index : Nat) : Except Err Nat :=
  if index ≥ st.numFrames then .error .frameIndexTooLarge
  else .ok (st.entries.getD index ⟨0, 0⟩).decompressedOffset

/-- `SeekTable.FrameEndComp`. -/
def SeekTable.frameEndComp (st : SeekTable) (index : Nat) : Except Err Nat :=
  if index ≥ st.numFrames then .error .frameIndexTooLarge
  else .ok (st.entries.getD (index + 1) ⟨0, 0⟩).compressedOffset

/-- `SeekTable.FrameEndDecomp`. -/
def SeekTable.frameEndDecomp (st : SeekTable) (index : Nat) : Except Err Nat :=
  if index ≥ st.numFrames then .error .frameIndexTooLarge
  else .ok (st.entries.getD (index + 1) ⟨0, 0⟩).decompressedOffset

/-- `SeekTable.FrameSizeComp`: difference of adjacent `uint64` offsets. -/
def SeekTable.frameSizeComp (st : SeekTable) (index : Nat) : Except Err Nat :=
  if index ≥ st.numFrames then .error .frameIndexTooLarge
  else .ok (wsub64 (st.entries.getD (index + 1) ⟨0, 0⟩).compressedOffset
                   (st.entries.getD index ⟨0, 0⟩).compressedOffset)

/-- `SeekTable.FrameSizeDecomp`. -/
def SeekTable.frameSizeDecomp (st : SeekTable) (index : Nat) : Except Err Nat :=
  if index ≥ st.numFrames then .error .frameIndexTooLarge
  else .ok (wsub64 (st.entries.getD (index + 1) ⟨0, 0⟩).decompressedOffset
                   (st.entries.getD index ⟨0, 0⟩).decompressedOffset)

/-- `SeekTable.MaxFrameSizeDecomp`: linear scan over all frames (errors from
`FrameSizeDecomp` are ignored in the source; indices are always in range). -/
def SeekTable.maxFrameSizeDecomp (st : SeekTable) : Nat :=
  (List.range st.numFrames).foldl
    (fun maxSize i =>
      match st.frameSizeDecomp i with
      | .ok size => if size > maxSize then size else maxSize
      | .error _ => maxSize) 0

/-! ## Parsing (`ParseSeekTable`, `ParseSeekTableSize`) -/

/-- The slot-reading loop of `ParseSeekTable` (lines 315–323): for each of
`n` frames read `(compressed_size, decompressed_size)` at the running slot
offset and append with `LogFrame`.  The Go loop uses
`offset = dataStart + i*SIZE_PER_FRAME`; here the offset advances by
`SIZE_PER_FRAME` per step. -/
def parseFrames (data : List Nat) : Nat → Nat → SeekTable → Except Err SeekTable
  | _, 0, st => .ok st
  | offset, n + 1, st =>
    let compSize := get32 (data.drop offset)
    let decompSize := get32 (data.drop (offset + 4))
    match st.logFrame compSize decompSize with
    | .error e => .error e
    | .ok st' => parseFrames data (offset + SIZE_PER_FRAME) n st'

/-- `ParseSeekTable` from `seektable.go`. -/
def parseSeekTable (data : List Nat) : Except Err SeekTable :=
  if data.length < SEEK_TABLE_FOOTER_SIZE then .error .corrupted
  else
    let footer := data.drop (data.length - SEEK_TABLE_FOOTER_SIZE)
    if get32 (footer.drop 5) ≠ SEEKABLE_MAGIC_NUMBER then .error .invalidMagic
    else
      let numFrames := get32 footer
      if numFrames > SEEKABLE_MAX_FRAMES then .error .frameIndexTooLarge
      else if data.length ≠ SKIPPABLE_HEADER_SIZE + SEEK_TABLE_FOOTER_SIZE +
          numFrames * SIZE_PER_FRAME then .error .corrupted
      else if get32 data ≠ SKIPPABLE_MAGIC_NUMBER then .error .invalidMagic
      else
        let dataStart :=
          if data.length > SKIPPABLE_HEADER_SIZE + SEEK_TABLE_FOOTER_SIZE ∧
              get32 (data.drop (SKIPPABLE_HEADER_SIZE + 5)) = SEEKABLE_MAGIC_NUMBER
          then SKIPPABLE_HEADER_SIZE + SEEK_TABLE_FOOTER_SIZE
          else SKIPPABLE_HEADER_SIZE
        parseFrames data dataStart numFrames newSeekTable

/-- `ParseSeekTableSize` from `seektable.go`: total seek-table length from a
9-byte integrity footer. -/
def parseSeekTableSize (integrity : List Nat) : Except Err Nat :=
  if integrity.length ≠ SEEK_TABLE_FOOTER_SIZE then .error .invalidIntegritySize
  else if get32 (integrity.drop 5) ≠ SEEKABLE_MAGIC_NUMBER then .error .invalidMagic
  else
    let numFrames := get32 integrity
    if numFrames > SEEKABLE_MAX_FRAMES then .error .frameIndexTooLarge
    else .ok (SKIPPABLE_HEADER_SIZE + SEEK_TABLE_FOOTER_SIZE + numFrames * SIZE_PER_FRAME)

/-! ## Claim C3: error behaviour of `ParseSeekTable` -/

/-- **C3.** `ParseSeekTable` fails exactly as the spec's parse steps
prescribe: input shorter than 9 bytes yields `Corrupted`; otherwise a wrong
seekable magic in the last 9 bytes yields `InvalidMagic`; otherwise
`num_frames > 2^27` yields `FrameIndexTooLarge`; otherwise a total length
different from `8 + 9 + 17·N` yields `Corrupted`; otherwise a wrong leading
skippable magic yields `InvalidMagic`.  In particular a 5-byte input yields
`Corrupted`, a 9-byte input with wrong seekable magic yields `InvalidMagic`,
and a 9-byte footer declaring `2^27 + 1` frames yields
`FrameIndexTooLarge`. -/
theorem parseSeekTable_error_cases :
    (∀ data : List Nat, data.length < SEEK_TABLE_FOOTER_SIZE →
      parseSeekTable data = .error .corrupted) ∧
    (∀ data : List Nat, SEEK_TABLE_FOOTER_SIZE ≤ data.length →
      get32 ((data.drop (data.length - SEEK_TABLE_FOOTER_SIZE)).drop 5) ≠
        SEEKABLE_MAGIC_NUMBER →
      parseSeekTable data = .error .invalidMagic) ∧
    (∀ data : List Nat, SEEK_TABLE_FOOTER_SIZE ≤ data.length →
      get32 ((data.drop (data.length - SEEK_TABLE_FOOTER_SIZE)).drop 5) =
        SEEKABLE_MAGIC_NUMBER →
      SEEKABLE_MAX_FRAMES < get32 (data.drop (data.length - SEEK_TABLE_FOOTER_SIZE)) →
      parseSeekTable data = .error .frameIndexTooLarge) ∧
    (∀ data : List Nat, SEEK_TABLE_FOOTER_SIZE ≤ data.length →
      get32 ((data.drop (data.length - SEEK_TABLE_FOOTER_SIZE)).drop 5) =
        SEEKABLE_MAGIC_NUMBER →
      get32 (data.drop (data.length - SEEK_TABLE_FOOTER_SIZE)) ≤ SEEKABLE_MAX_FRAMES →
      data.length ≠ SKIPPABLE_HEADER_SIZE + SEEK_TABLE_FOOTER_SIZE +
        get32 (data.drop (data.length - SEEK_TABLE_FOOTER_SIZE)) * SIZE_PER_FRAME →
      parseSeekTable data = .error .corrupted) ∧
    (∀ data : List Nat, SEEK_TABLE_FOOTER_SIZE ≤ data.length →
      get32 ((data.drop (data.length - SEEK_TABLE_FOOTER_SIZE)).drop 5) =
        SEEKABLE_MAGIC_NUMBER →
      get32 (data.drop (data.length - SEEK_TABLE_FOOTER_SIZE)) ≤ SEEKABLE_MAX_FRAMES →
      data.length = SKIPPABLE_HEADER_SIZE + SEEK_TABLE_FOOTER_SIZE +
        get32 (data.drop (data.length - SEEK_TABLE_FOOTER_SIZE)) * SIZE_PER_FRAME →
      get32 data ≠ SKIPPABLE_MAGIC_NUMBER →
      parseSeekTable data = .error .invalidMagic) ∧
    parseSeekTable (List.replicate 5 0) = .error .corrupted ∧
    parseSeekTable (List.replicate 9 0) = .error .invalidMagic ∧
    parseSeekTable (le32 (SEEKABLE_MAX_FRAMES + 1) ++ [0] ++
      le32 SEEKABLE_MAGIC_NUMBER) = .error .frameIndexTooLarge := by
  refine ⟨?_, ?_, ?_, ?_, ?_, by rfl, by rfl, by rfl⟩
  · intro data h
    simp only [parseSeekTable]
    rw [if_pos h]
  · intro data h hm
    simp only [parseSeekTable]
    rw [if_neg (Nat.not_lt.mpr h), if_pos hm]
  · intro data h hm hn
    simp only [parseSeekTable]
    rw [if_neg (Nat.not_lt.mpr h), if_neg (not_not_intro hm), if_pos hn]
  · intro data h hm hn hl
    simp only [parseSeekTable]
    rw [if_neg (Nat.not_lt.mpr h), if_neg (not_not_intro hm),
      if_neg (Nat.not_lt.mpr hn), if_pos hl]
  · intro data h hm hn hl hs
    simp only [parseSeekTable]
    rw [if_neg (Nat.not_lt.mpr h), if_neg (not_not_intro hm),
      if_neg (Nat.not_lt.mpr hn), if_neg (not_not_intro hl), if_pos hs]

/-- Witness for C3: the first conjunct applied at the concrete input
`[0, 0, 0]`. -/
theorem parseSeekTable_error_cases_witness :
    parseSeekTable [0, 0, 0] = .error .corrupted :=
  parseSeekTable_error_cases.1 [0, 0, 0] (by decide)

/-! ## Decoder (`decoder.go`)

The underlying random-access source is modelled abstractly: the decoder
state records the source's absolute position, and every operation returns
the trace of `Read`/`Seek` calls it performs on the source (all source I/O
is modelled as succeeding).  The external `FrameCodec.DecodeAll` capability
is modelled by two functions giving the decompressed bytes of frame `i`
when decoded without (`dec`) and with (`decP`) a prefix; the byte contents
of the compressed input determine these, so they are parameters of the
embedding. -/

/-- An `io.EOF`-style sentinel is needed alongside the named errors. -/
inductive ReadErr where
  | eof
  | other (e : Err)
deriving DecidableEq, Repr

/-- Operations performed on the underlying random-access source. -/
inductive SrcOp where
  | read (n : Nat)
  | seek (pos : Nat)
deriving DecidableEq, Repr

/-- The fields of `Decoder` from `decoder.go` (the zstd decoder handle and
options carry no state relevant to the embedded operations), plus `srcPos`,
the absolute position of the underlying source. -/
structure DecState where
  seekTable : SeekTable
  currentFrame : Nat
  decompressed : List Nat
  lowerFrame : Nat
  upperFrame : Nat
  totalRead : Nat
  eofReached : Bool
  srcPos : Nat
deriving DecidableEq, Repr

/-- `NewDecoder` (decoder.go lines 103–134), modelled from the point where
the seek table has been resolved: the `opts.SeekTable != nil` override path
verbatim; the tail-parse path restores the original source position before
the final seek, so it reaches the same state when it succeeds.
`upperFrame` is a `uint32`, so `NumFrames() - 1` wraps modulo `2^32`. -/
def newDecoder (st : SeekTable) (lowerFrame upperFrame : Nat) : Except Err DecState :=
  let upper := if upperFrame = 0 ∨ upperFrame ≥ st.numFrames
               then (st.numFrames + U32 - 1) % U32 else upperFrame
  if lowerFrame > 0 then
    match st.frameStartComp lowerFrame with
    | .error e => .error e
    | .ok startOffset =>
      .ok ⟨st, lowerFrame, [], lowerFrame, upper, 0, false, startOffset⟩
  else
    .ok ⟨st, lowerFrame, [], lowerFrame, upper, 0, false, 0⟩

/-- `Decoder.decompressNextFrame`: read one compressed frame from the source
and append its decoded bytes to the residual buffer.  The compressed bytes
are consumed from the source at its current position, so decode results are
given by `dec`/`decP` applied to the frame index. -/
def decompressNextFrame (dec decP : Nat → List Nat) (hasPrefix : Bool)
    (d : DecState) : Except ReadErr (DecState × List SrcOp) :=
  if d.currentFrame > d.upperFrame then .error .eof
  else
    match d.seekTable.frameSizeComp d.currentFrame with
    | .error e => .error (.other e)
    | .ok frameSize =>
      let decoded :=
        if hasPrefix ∧ d.currentFrame = d.lowerFrame then decP d.currentFrame
        else dec d.currentFrame
      .ok ({ d with
              decompressed := d.decompressed ++ decoded,
              currentFrame := d.currentFrame + 1,
              srcPos := d.srcPos + frameSize },
           [SrcOp.read frameSize])

/-- The loop of `Decoder.ReadWithPrefix` (decoder.go lines 149–168), with
fuel.  Returns `(bytes delivered, error-or-nil, final state, source ops)`;
`none` on fuel exhaustion (each Go iteration either delivers at least one
byte or advances `currentFrame`, so
`pLen + upperFrame + 1` fuel always suffices). -/
def readLoop (dec decP : Nat → List Nat) (hasPrefix : Bool) (pLen : Nat) :
    Nat → Nat → DecState → List SrcOp →
    Option (Nat × Option ReadErr × DecState × List SrcOp)
  | 0, acc, d, ops =>
    if acc < pLen ∧ d.eofReached = false then none else some (acc, none, d, ops)
  | fuel + 1, acc, d, ops =>
    if acc < pLen ∧ d.eofReached = false then
      if d.decompressed.length > 0 then
        let n := min d.decompressed.length (pLen - acc)
        readLoop dec decP hasPrefix pLen fuel (acc + n)
          { d with decompressed := d.decompressed.drop n,
                   totalRead := d.totalRead + n } ops
      else
        match decompressNextFrame dec decP hasPrefix d with
        | .error .eof =>
          let d' := { d with eofReached := true }
          if acc > 0 then some (acc, none, d', ops)
          else some (acc, some .eof, d', ops)
        | .error e => some (acc, some e, d, ops)
        | .ok (d', newOps) => readLoop dec decP hasPrefix pLen fuel acc d' (ops ++ newOps)
    else some (acc, none, d, ops)

/-- `Decoder.ReadWithPrefix` (and `Decoder.Read`, which is
`ReadWithPrefix(p, nil)`). -/
def readWithPrefix (dec decP : Nat → List Nat) (hasPrefix : Bool) (fuel pLen : Nat)
    (d : DecState) : Option (Nat × Option ReadErr × DecState × List SrcOp) :=
  if d.eofReached then some (0, some .eof, d, [])
  else readLoop dec decP hasPrefix pLen fuel 0 d []

/-- `Decoder.mustFrameEndDecomp`: ignores the error and returns the 0 that
`FrameEndDecomp` yields alongside it. -/
def mustFrameEndDecomp (st : SeekTable) (frame : Nat) : Nat :=
  match st.frameEndDecomp frame with
  | .ok offset => offset
  | .error _ => 0

/-- The binary-search loop of `Decoder.findFrameAtOffset` (decoder.go lines
317–325), with fuel (the gap `high - low` strictly decreases, so fuel
`high - low` suffices). -/
def findLoop (st : SeekTable) (offset : Nat) :
    Nat → Nat → Nat → Nat × Nat
  | 0, low, high => (low, high)
  | fuel + 1, low, high =>
    if low + 1 < high then
      if offset < mustFrameEndDecomp st ((low + high) / 2) then
        findLoop st offset fuel low ((low + high) / 2)
      else findLoop st offset fuel ((low + high) / 2) high
    else (low, high)

/-- `Decoder.findFrameAtOffset`. -/
def findFrameAtOffset (st : SeekTable) (offset : Nat) : Nat :=
  if offset = 0 then 0
  else if offset ≥ mustFrameEndDecomp st (st.numFrames - 1) then st.numFrames - 1
  else if offset < mustFrameEndDecomp st
      (findLoop st offset st.numFrames 0 st.numFrames).1 then
    (findLoop st offset st.numFrames 0 st.numFrames).1
  else (findLoop st offset st.numFrames 0 st.numFrames).2

/-- Go `uint64(x)` for an `int64` value `x`: reduction modulo `2^64`. -/
def toU64 (x : Int) : Nat := (x % (U64 : Int)).toNat

/-- The skip loop of `Decoder.Seek` (decoder.go lines 225–237): repeatedly
`Read` into a 4096-byte scratch buffer until `skipBytes` bytes have been
discarded.  `none` on fuel exhaustion. -/
def skipLoop (dec decP : Nat → List Nat) :
    Nat → Nat → DecState → List SrcOp →
    Option (Except ReadErr Unit × DecState × List SrcOp)
  | 0, skipBytes, d, ops =>
    if skipBytes = 0 then some (.ok (), d, ops) else none
  | fuel + 1, skipBytes, d, ops =>
    if skipBytes = 0 then some (.ok (), d, ops)
    else
      let toSkip := min skipBytes 4096
      match readWithPrefix dec decP false (fuel + 1) toSkip d with
      | none => none
      | some (_, some e, d', ops') => some (.error e, d', ops ++ ops')
      | some (n, none, d', ops') => skipLoop dec decP fuel (skipBytes - n) d' (ops ++ ops')

/-- `Decoder.Seek` (decoder.go lines 174–240).  Returns the result of the
call together with the state after it and the trace of source operations.
`none` on fuel exhaustion inside the skip loop. -/
def seekDecoder (dec decP : Nat → List Nat) (fuel : Nat) (offset : Int) (whence : Nat)
    (d : DecState) : Option ((Except ReadErr Int) × DecState × List SrcOp) :=
  let resolve : Except ReadErr Nat :=
    if whence = 0 then .ok (toU64 offset)
    else if whence = 1 then .ok ((d.totalRead + toU64 offset) % U64)
    else if whence = 2 then
      match d.seekTable.frameEndDecomp (d.seekTable.numFrames - 1) with
      | .error e => .error (.other e)
      | .ok totalSize => .ok ((totalSize + toU64 offset) % U64)
    else .error (.other .invalidWhence)
  match resolve with
  | .error e => some (.error e, d, [])
  | .ok targetOffset =>
    let targetFrame0 := findFrameAtOffset d.seekTable targetOffset
    let targetFrame1 := if targetFrame0 < d.lowerFrame then d.lowerFrame else targetFrame0
    let targetFrame := if targetFrame1 > d.upperFrame then d.upperFrame else targetFrame1
    match d.seekTable.frameStartDecomp targetFrame with
    | .error e => some (.error (.other e), d, [])
    | .ok frameStartDecomp =>
      match d.seekTable.frameStartComp targetFrame with
      | .error e => some (.error (.other e), d, [])
      | .ok frameStartComp =>
        let d1 : DecState :=
          { d with currentFrame := targetFrame,
                   decompressed := [],
                   totalRead := frameStartDecomp,
                   eofReached := false,
                   srcPos := frameStartComp }
        let ops1 := [SrcOp.seek frameStartComp]
        if targetOffset > frameStartDecomp then
          match skipLoop dec decP fuel (targetOffset - frameStartDecomp) d1 ops1 with
          | none => none
          | some (.error e, d2, ops2) => some (.error e, d2, ops2)
          | some (.ok _, d2, ops2) => some (.ok (d2.totalRead : Int), d2, ops2)
        else some (.ok (d1.totalRead : Int), d1, ops1)

/-- `NumFrames` is a `uint32` value. -/
theorem numFrames_lt_U32 (st : SeekTable) : st.numFrames < U32 :=
  Nat.mod_lt _ (by decide)

theorem wrap_pred {N : Nat} (h1 : 1 ≤ N) (h2 : N < U32) :
    (N + U32 - 1) % U32 = N - 1 := by
  have e : N + U32 - 1 = (N - 1) + U32 := by omega
  rw [e, Nat.add_mod_right, Nat.mod_eq_of_lt (by omega)]

/-- A concrete two-frame seek table (both frames of compressed and
decompressed size 10), as produced by two `LogFrame(10, 10)` calls. -/
def tbl2 : SeekTable := ⟨[⟨0, 0⟩, ⟨10, 10⟩, ⟨20, 20⟩]⟩

theorem tbl2_built :
    (newSeekTable.logFrame 10 10).bind (fun st => st.logFrame 10 10) = .ok tbl2 := rfl

/-! ## Claim C5: the effective upper frame bound -/

/-- **C5 is false as stated**: with `N = 2` frames, `lower_frame = 0` and
`upper_frame = 0`, the value `u = 0` lies in `[l, N-1] = [0, 1]`, yet the
effective upper bound after initialization is `N - 1 = 1`, not `u = 0`
(`NewDecoder` special-cases `u == 0` and never consults `l`). -/
theorem newDecoder_upperFrame_cx :
    ((0 : Nat) ≤ 0 ∧ (0 : Nat) ≤ tbl2.numFrames - 1) ∧
    (newDecoder tbl2 0 0).map DecState.upperFrame = .ok 1 ∧ (1 : Nat) ≠ 0 :=
  ⟨by decide, rfl, by decide⟩

/-- **C5 (amended).** For every decoder constructed over a seek table with
`N ≥ 1` frames and options `lower_frame = l`, `upper_frame = u`, the
effective upper bound equals `u` when `u ≠ 0` and `u ≤ N - 1`, and equals
`N - 1` otherwise; the lower bound `l` is not consulted. -/
theorem newDecoder_upperFrame (st : SeekTable) (l u : Nat) (d : DecState)
    (h1 : 1 ≤ st.numFrames) (hd : newDecoder st l u = .ok d) :
    d.upperFrame = if u = 0 ∨ st.numFrames ≤ u then st.numFrames - 1 else u := by
  have hlt : st.numFrames < U32 := numFrames_lt_U32 st
  simp only [newDecoder, ge_iff_le] at hd
  split at hd
  · split at hd
    · exact absurd hd (by simp)
    · cases hd
      simp only []
      split
      · exact wrap_pred h1 hlt
      · rfl
  · cases hd
    simp only []
    split
    · exact wrap_pred h1 hlt
    · rfl

/-- Witness for C5: the amended rule applied to the concrete table `tbl2`
with `l = 0`, `u = 1`. -/
theorem newDecoder_upperFrame_witness :
    (⟨tbl2, 0, [], 0, 1, 0, false, 0⟩ : DecState).upperFrame =
      if (1 : Nat) = 0 ∨ tbl2.numFrames ≤ 1 then tbl2.numFrames - 1 else 1 :=
  newDecoder_upperFrame tbl2 0 1 _ (by decide) rfl

/-! ## Claim C6: source position and logical cursor after `NewDecoder` -/

/-- **C6 is false as stated**: after `NewDecoder` over `tbl2` with
`lower_frame = 1`, the source is indeed positioned at
`frame_start_comp(1) = 10`, but the decoder's logical decompressed cursor
(`totalRead`, the base for `whence = Current` seeks) is `0`, not
`cumulative_decompressed[1] = 10`. -/
theorem newDecoder_cursor_cx :
    (newDecoder tbl2 1 0).map (fun d => (d.srcPos, d.totalRead)) = .ok (10, 0) ∧
    tbl2.frameStartDecomp 1 = .ok 10 ∧ (0 : Nat) ≠ 10 :=
  ⟨rfl, rfl, by decide⟩

/-- **C6 (amended).** Immediately after `NewDecoder` succeeds with
`lower_frame = l` (a valid frame index, over a table whose sentinel entry is
`(0, 0)`), the underlying source is positioned at the absolute compressed
offset `frame_start_comp(l)`, and the logical decompressed cursor is `0`
regardless of `l`. -/
theorem newDecoder_position (st : SeekTable) (l u : Nat) (d : DecState)
    (h0 : st.entries.getD 0 ⟨0, 0⟩ = ⟨0, 0⟩) (hl : l < st.numFrames)
    (hd : newDecoder st l u = .ok d) :
    st.frameStartComp l = .ok d.srcPos ∧ d.totalRead = 0 := by
  simp only [newDecoder, ge_iff_le] at hd
  split at hd
  · rename_i hpos
    split at hd
    · exact absurd hd (by simp)
    · rename_i startOffset hso
      cases hd
      exact ⟨hso, rfl⟩
  · rename_i hpos
    have hl0 : l = 0 := by omega
    cases hd
    subst hl0
    refine ⟨?_, rfl⟩
    simp only [SeekTable.frameStartComp, if_neg (Nat.not_le.mpr hl), h0]

/-- Witness for C6: the amended statement applied to `tbl2` with `l = 1`. -/
theorem newDecoder_position_witness :
    tbl2.frameStartComp 1 =
      .ok (⟨tbl2, 1, [], 1, 1, 0, false, 10⟩ : DecState).srcPos ∧
    (⟨tbl2, 1, [], 1, 1, 0, false, 10⟩ : DecState).totalRead = 0 :=
  newDecoder_position tbl2 1 0 _ (by decide) (by decide) rfl

/-! ## Claim C9: reads after end-of-stream -/

/-- **C9.** Once a read has signaled end-of-stream (the `eofReached` flag is
set, which happens exactly when the current frame has passed the effective
upper bound), every subsequent `Read`/`ReadWithPrefix` returns end-of-stream
with 0 bytes, leaves the decoder state unchanged, and performs no read or
seek on the underlying source. -/
theorem read_after_eof (dec decP : Nat → List Nat) (hasPrefix : Bool)
    (fuel pLen : Nat) (d : DecState) (h : d.eofReached = true) :
    readWithPrefix dec decP hasPrefix fuel pLen d = some (0, some .eof, d, []) := by
  simp [readWithPrefix, h]

/-- Witness for C9: a concrete post-EOF decoder state over `tbl2`. -/
theorem read_after_eof_witness :
    readWithPrefix (fun _ => []) (fun _ => []) false 5 3
      (⟨tbl2, 2, [], 0, 1, 20, true, 20⟩ : DecState) =
      some (0, some .eof, ⟨tbl2, 2, [], 0, 1, 20, true, 20⟩, []) :=
  read_after_eof (fun _ => []) (fun _ => []) false 5 3 _ rfl

/-! ## Claim C10: `Seek` with an invalid whence -/

/-- **C10.** Calling `Seek` with a whence value other than `Start` (0),
`Current` (1) or `End` (2) returns an error and leaves the entire decoder
state unchanged — frame index, residual buffer, cursor, EOF flag and source
position — performing no operation on the underlying source. -/
theorem seek_invalid_whence (dec decP : Nat → List Nat) (fuel : Nat)
    (offset : Int) (whence : Nat) (d : DecState)
    (h0 : whence ≠ 0) (h1 : whence ≠ 1) (h2 : whence ≠ 2) :
    seekDecoder dec decP fuel offset whence d =
      some (.error (.other .invalidWhence), d, []) := by
  simp [seekDecoder, h0, h1, h2]

/-- Witness for C10: whence `7` on a concrete decoder state. -/
theorem seek_invalid_whence_witness :
    seekDecoder (fun _ => []) (fun _ => []) 3 5 7
      (⟨tbl2, 0, [], 0, 1, 0, false, 0⟩ : DecState) =
      some (.error (.other .invalidWhence), ⟨tbl2, 0, [], 0, 1, 0, false, 0⟩, []) :=
  seek_invalid_whence (fun _ => []) (fun _ => []) 3 5 7 _
    (by decide) (by decide) (by decide)

/-! ## Encoder (`encoder.go`)

The external `FrameCodec.EncodeAll` capability is modelled by a function
`encLen` giving the length of the compressed frame fragment produced for an
input of a given length: the encoder's partitioning, accounting and seek
table depend on the caller's bytes and the codec's output only through
their lengths (`p` is consumed as `len(p)` and chunk slices fed to
`EncodeAll`; the compressed bytes are appended to the frame scratch buffer
and counted).  Inputs and prefixes are therefore carried as byte counts. -/

/-- `FrameSizePolicy` from `encoder.go` (both sizes are `uint32` fields). -/
inductive FrameSizePolicy where
  | compressedFrameSize (size : Nat)
  | uncompressedFrameSize (size : Nat)
deriving DecidableEq, Repr

/-- The accounting fields of `Encoder` from `encoder.go` (the writer, the
zstd handle and the scratch buffer contents carry no information beyond
`frameCSize`, which equals the scratch buffer's length). -/
structure Encoder where
  policy : FrameSizePolicy
  seekTable : SeekTable
  frameCSize : Nat
  frameDSize : Nat
  writtenTotal : Nat
  currentFrameNum : Nat
deriving DecidableEq, Repr

/-- `NewEncoder`: empty table, zeroed accumulators. -/
def newEncoder (policy : FrameSizePolicy) : Encoder :=
  ⟨policy, newSeekTable, 0, 0, 0, 0⟩

/-- `Encoder.remainingFrameSize` (encoder.go lines 221–245).  Negative
Go intermediate values are clamped to 0 by the truncated subtraction, which
agrees with the source on every state reachable without violating
`frameDSize ≤ MAX_FRAME_SIZE`. -/
def Encoder.remainingFrameSize (e : Encoder) : Nat :=
  match e.policy with
  | .compressedFrameSize size =>
    min (size - e.frameCSize) (MAX_FRAME_SIZE - e.frameDSize)
  | .uncompressedFrameSize size =>
    min (size - e.frameDSize) MAX_FRAME_SIZE

/-- `Encoder.isFrameComplete` (encoder.go lines 247–260). -/
def Encoder.isFrameComplete (e : Encoder) : Bool :=
  match e.policy with
  | .compressedFrameSize size =>
    decide (size ≤ e.frameCSize) || decide (MAX_FRAME_SIZE ≤ e.frameDSize)
  | .uncompressedFrameSize size =>
    decide (min size MAX_FRAME_SIZE ≤ e.frameDSize)

/-- `Encoder.EndFrame` (encoder.go lines 152–177): no-op on an empty frame;
otherwise flush the scratch buffer (always succeeds here), log the frame
sizes as `uint32` values, bump the totals and reset the frame state. -/
def Encoder.endFrame (e : Encoder) : Except Err Encoder :=
  if e.frameDSize = 0 then .ok e
  else
    match e.seekTable.logFrame (e.frameCSize % U32) (e.frameDSize % U32) with
    | .error err => .error err
    | .ok st =>
      .ok { e with seekTable := st,
                   writtenTotal := (e.writtenTotal + e.frameCSize) % U64,
                   currentFrameNum := (e.currentFrameNum + 1) % U32,
                   frameCSize := 0, frameDSize := 0 }

/-- One compression step of `WriteWithPrefix`: compress the next `toWrite`
input bytes (with the prefix logically prepended on the first chunk of a
frame), append to the frame scratch buffer and update the accumulators;
the prefix length is not counted in `frameDSize`. -/
def acceptChunk (encLen : Nat → Nat) (prefixLen : Option Nat) (e : Encoder)
    (toWrite : Nat) : Encoder :=
  let inputLen :=
    match prefixLen with
    | some pl => if e.frameDSize = 0 then pl + toWrite else toWrite
    | none => toWrite
  { e with frameCSize := (e.frameCSize + encLen inputLen) % U64,
           frameDSize := (e.frameDSize + toWrite) % U64 }

/-- `EndFrame` guarded by a condition (the `remaining == 0` and
`isFrameComplete()` call sites of `WriteWithPrefix`). -/
def endFrameIf (b : Bool) (e : Encoder) : Except Err Encoder :=
  if b then e.endFrame else .ok e

/-- The loop of `Encoder.WriteWithPrefix` (encoder.go lines 104–149), with
fuel.  `n` is `len(p)`; `prefixLen` is `len(prefix)` when a prefix is
given; the result is `(bytes accepted, final encoder)`.  `none` covers both
fuel exhaustion (each iteration accepts at least one byte whenever the
policy size is nonzero, so fuel `n` suffices) and an `EndFrame` error. -/
def writeLoop (encLen : Nat → Nat) (prefixLen : Option Nat) :
    Nat → Encoder → Nat → Option (Nat × Encoder)
  | _, e, 0 => some (0, e)
  | 0, _, _ + 1 => none
  | fuel + 1, e, n + 1 =>
    let remaining0 := e.remainingFrameSize
    match endFrameIf (decide (remaining0 = 0)) e with
    | .error _ => none
    | .ok e1 =>
      let remaining := if remaining0 = 0 then e1.remainingFrameSize else remaining0
      let toWrite := min (n + 1) remaining
      let e2 := acceptChunk encLen prefixLen e1 toWrite
      match endFrameIf e2.isFrameComplete e2 with
      | .error _ => none
      | .ok e3 =>
        match writeLoop encLen prefixLen fuel e3 (n + 1 - toWrite) with
        | none => none
        | some (rest, e4) => some (toWrite + rest, e4)

/-- The seek table that `Finish`/`FinishWithFormat` serializes: the table
after the final `EndFrame`. -/
def Encoder.finishTable (e : Encoder) : Except Err SeekTable :=
  (e.endFrame).map Encoder.seekTable

/-! ## Claim C7: partitioning under `UncompressedFrameSize` -/

set_option maxRecDepth 100000 in
/-- **C7.** Writing a 300-byte input to an encoder with policy
`UncompressedFrameSize{100}` and finishing produces a seek table with
`num_frames = 3` and per-frame decompressed sizes `[100, 100, 100]`, for
every behaviour of the external compressor; and in general, under
`UncompressedFrameSize{size}` the frame-completion test fires exactly when
the frame's accumulated decompressed bytes reach `min(size, 2^32)`. -/
theorem uncompressed_policy_partitioning :
    (∀ encLen : Nat → Nat,
      ((writeLoop encLen none 300 (newEncoder (.uncompressedFrameSize 100)) 300).map
        (fun p => (p.1, p.2.finishTable.map (fun t =>
          (t.numFrames, t.frameSizeDecomp 0, t.frameSizeDecomp 1,
           t.frameSizeDecomp 2))))) =
        some (300, .ok (3, .ok 100, .ok 100, .ok 100))) ∧
    (∀ (e : Encoder) (size : Nat), e.policy = .uncompressedFrameSize size →
      (e.isFrameComplete = true ↔ min size MAX_FRAME_SIZE ≤ e.frameDSize)) := by
  constructor
  · intro encLen
    rfl
  · intro e size hp
    simp [Encoder.isFrameComplete, hp]

/-- Witness for C7: the completion rule applied to a fresh encoder with
`size = 5` (no bytes accumulated, so the frame is not complete). -/
theorem uncompressed_policy_partitioning_witness :
    (newEncoder (.uncompressedFrameSize 5)).isFrameComplete = true ↔
      min 5 MAX_FRAME_SIZE ≤ (newEncoder (.uncompressedFrameSize 5)).frameDSize :=
  uncompressed_policy_partitioning.2 (newEncoder (.uncompressedFrameSize 5)) 5 rfl

/-! ## Reachable-table invariant -/

/-- Invariant of every seek table reachable through `NewSeekTable` and
successful `LogFrame` calls: nonempty entry list headed by the `(0, 0)`
sentinel, at most `SEEKABLE_MAX_FRAMES` frames, offsets bounded so that the
`uint64` additions in `LogFrame` never wrap, and adjacent offsets
non-decreasing with per-frame differences below `2^32`. -/
def TblInv (st : SeekTable) : Prop :=
  st.entries ≠ [] ∧
  st.entries.length ≤ SEEKABLE_MAX_FRAMES + 1 ∧
  st.entries.head? = some ⟨0, 0⟩ ∧
  (∀ i, i < st.entries.length →
    (st.entries.getD i ⟨0, 0⟩).compressedOffset ≤ i * (U32 - 1) ∧
    (st.entries.getD i ⟨0, 0⟩).decompressedOffset ≤ i * (U32 - 1)) ∧
  (∀ i, i + 1 < st.entries.length →
    (st.entries.getD i ⟨0, 0⟩).compressedOffset ≤
      (st.entries.getD (i + 1) ⟨0, 0⟩).compressedOffset ∧
    (st.entries.getD (i + 1) ⟨0, 0⟩).compressedOffset -
      (st.entries.getD i ⟨0, 0⟩).compressedOffset < U32 ∧
    (st.entries.getD i ⟨0, 0⟩).decompressedOffset ≤
      (st.entries.getD (i + 1) ⟨0, 0⟩).decompressedOffset ∧
    (st.entries.getD (i + 1) ⟨0, 0⟩).decompressedOffset -
      (st.entries.getD i ⟨0, 0⟩).decompressedOffset < U32)

theorem TblInv_new : TblInv newSeekTable := by
  refine ⟨by decide, by decide, rfl, ?_, ?_⟩
  · intro i hi
    simp only [newSeekTable, List.length_singleton] at hi
    have hi0 : i = 0 := by omega
    subst hi0
    exact ⟨by decide, by decide⟩
  · intro i hi
    simp [newSeekTable] at hi

theorem numFrames_eq_of_TblInv {st : SeekTable} (h : TblInv st) :
    st.numFrames = st.entries.length - 1 := by
  obtain ⟨-, hlen, -, -, -⟩ := h
  have : st.entries.length - 1 < U32 := by
    have : (SEEKABLE_MAX_FRAMES : Nat) + 1 < U32 := by decide
    omega
  simpa [SeekTable.numFrames] using Nat.mod_eq_of_lt this

theorem getLastD_eq_getD (l : List Entry) (d : Entry) :
    l.getLastD d = l.getD (l.length - 1) d := by
  rw [List.getLastD_eq_getLast?, List.getLast?_eq_getElem?,
    List.getD_eq_getD_get?, List.get?_eq_getElem?]

theorem logFrame_TblInv {st st' : SeekTable} {c d : Nat}
    (hc : c < U32) (hd : d < U32) (h : TblInv st)
    (hl : st.logFrame c d = .ok st') :
    TblInv st' ∧
    st'.entries = st.entries ++
      [⟨(st.entries.getD (st.entries.length - 1) ⟨0, 0⟩).compressedOffset + c,
        (st.entries.getD (st.entries.length - 1) ⟨0, 0⟩).decompressedOffset + d⟩] := by
  obtain ⟨hne, hlen, hhead, habs, hadj⟩ := h
  simp only [SeekTable.logFrame] at hl
  rw [numFrames_eq_of_TblInv ⟨hne, hlen, hhead, habs, hadj⟩] at hl
  split at hl
  · exact absurd hl (by simp)
  · rename_i hguard
    have hlen1 : 1 ≤ st.entries.length := by
      cases he : st.entries with
      | nil => exact absurd he hne
      | cons a t => simp [he]
    have hlenM : st.entries.length ≤ SEEKABLE_MAX_FRAMES := by omega
    have hlast := habs (st.entries.length - 1) (by omega)
    have e1 : st.entries.length * (U32 - 1) =
        (st.entries.length - 1) * (U32 - 1) + (U32 - 1) := by
      conv_lhs => rw [show st.entries.length = (st.entries.length - 1) + 1 by omega]
      rw [Nat.succ_mul]
    -- the uint64 additions do not wrap
    have hcbound : (st.entries.getD (st.entries.length - 1) ⟨0, 0⟩).compressedOffset
        + c ≤ st.entries.length * (U32 - 1) := by omega
    have hdbound : (st.entries.getD (st.entries.length - 1) ⟨0, 0⟩).decompressedOffset
        + d ≤ st.entries.length * (U32 - 1) := by omega
    have hLU : st.entries.length * (U32 - 1) < U64 := by
      calc st.entries.length * (U32 - 1)
          ≤ (SEEKABLE_MAX_FRAMES + 1) * (U32 - 1) :=
            Nat.mul_le_mul_right _ (by omega)
        _ < U64 := by decide
    rw [getLastD_eq_getD] at hl
    rw [Nat.mod_eq_of_lt (by omega), Nat.mod_eq_of_lt (by omega)] at hl
    have hst' : st'.entries = st.entries ++
        [⟨(st.entries.getD (st.entries.length - 1) ⟨0, 0⟩).compressedOffset + c,
          (st.entries.getD (st.entries.length - 1) ⟨0, 0⟩).decompressedOffset + d⟩] := by
      cases hl; rfl
    refine ⟨⟨by simp [hst'], by simp [hst']; omega, ?_, ?_, ?_⟩, hst'⟩
    · cases he : st.entries with
      | nil => exact absurd he hne
      | cons a t =>
        rw [he] at hhead
        simp only [List.head?_cons, Option.some.injEq] at hhead
        rw [hst', he]
        simp [hhead]
    · intro i hi
      rw [hst'] at hi
      simp only [List.length_append, List.length_singleton] at hi
      rcases Nat.lt_or_ge i st.entries.length with hiL | hiL
      · rw [hst', List.getD_append _ _ _ _ hiL]
        exact habs i hiL
      · have hiL' : i = st.entries.length := by omega
        subst hiL'
        rw [hst', List.getD_append_right _ _ _ _ (by omega)]
        simp only [Nat.sub_self, List.getD_cons_zero]
        exact ⟨by omega, by omega⟩
    · intro i hi
      rw [hst'] at hi
      simp only [List.length_append, List.length_singleton] at hi
      rcases Nat.lt_or_ge (i + 1) st.entries.length with hiL | hiL
      · rw [hst', List.getD_append _ _ _ _ hiL,
          List.getD_append _ _ _ _ (by omega)]
        exact hadj i hiL
      · have hiL' : i + 1 = st.entries.length := by omega
        rw [hst', List.getD_append _ _ _ _ (by omega),
          List.getD_append_right _ _ _ _ (by omega), hiL']
        have hi' : i = st.entries.length - 1 := by omega
        rw [hi']
        simp only [Nat.sub_self, List.getD_cons_zero]
        refine ⟨by omega, by omega, by omega, by omega⟩

/-- Per-frame sizes of a well-formed table fit in `uint32`. -/
theorem TblInv_frameSize {st : SeekTable} (h : TblInv st) (i v : Nat) :
    (st.frameSizeDecomp i = .ok v → v < U32) ∧
    (st.frameSizeComp i = .ok v → v < U32) := by
  obtain ⟨hne, hlen, hhead, habs, hadj⟩ := h
  have hnf := numFrames_eq_of_TblInv ⟨hne, hlen, hhead, habs, hadj⟩
  constructor
  · intro hv
    simp only [SeekTable.frameSizeDecomp] at hv
    split at hv
    · exact absurd hv (by simp)
    · rename_i hguard
      rw [hnf] at hguard
      have hi1 : i + 1 < st.entries.length := by omega
      obtain ⟨-, -, hmono, hdiff⟩ := hadj i hi1
      have hup := (habs (i + 1) hi1).2
      have hU : (st.entries.getD (i + 1) ⟨0, 0⟩).decompressedOffset < U64 := by
        calc (st.entries.getD (i + 1) ⟨0, 0⟩).decompressedOffset
            ≤ (i + 1) * (U32 - 1) := hup
          _ ≤ (SEEKABLE_MAX_FRAMES + 1) * (U32 - 1) :=
              Nat.mul_le_mul_right _ (by omega)
          _ < U64 := by decide
      rw [wsub64_eq hmono hU] at hv
      cases hv
      exact hdiff
  · intro hv
    simp only [SeekTable.frameSizeComp] at hv
    split at hv
    · exact absurd hv (by simp)
    · rename_i hguard
      rw [hnf] at hguard
      have hi1 : i + 1 < st.entries.length := by omega
      obtain ⟨hmono, hdiff, -, -⟩ := hadj i hi1
      have hup := (habs (i + 1) hi1).1
      have hU : (st.entries.getD (i + 1) ⟨0, 0⟩).compressedOffset < U64 := by
        calc (st.entries.getD (i + 1) ⟨0, 0⟩).compressedOffset
            ≤ (i + 1) * (U32 - 1) := hup
          _ ≤ (SEEKABLE_MAX_FRAMES + 1) * (U32 - 1) :=
              Nat.mul_le_mul_right _ (by omega)
          _ < U64 := by decide
      rw [wsub64_eq hmono hU] at hv
      cases hv
      exact hdiff

/-! ## Claim C2: frame decompressed-size caps -/

/-- Both policy variants carry `uint32` size fields. -/
def policyU32 : FrameSizePolicy → Prop
  | .compressedFrameSize size => size < U32
  | .uncompressedFrameSize size => size < U32

/-- Invariant of every reachable encoder state. -/
def EncInv (e : Encoder) : Prop :=
  policyU32 e.policy ∧
  e.frameDSize ≤ MAX_FRAME_SIZE ∧
  (∀ s, e.policy = .uncompressedFrameSize s → e.frameDSize ≤ s) ∧
  TblInv e.seekTable

theorem endFrame_EncInv {e e' : Encoder} (h : EncInv e) (he : e.endFrame = .ok e') :
    EncInv e' := by
  obtain ⟨hpol, hD, hDs, htbl⟩ := h
  simp only [Encoder.endFrame] at he
  split at he
  · cases he; exact ⟨hpol, hD, hDs, htbl⟩
  · split at he
    · exact absurd he (by simp)
    · rename_i st' hst'
      cases he
      have := logFrame_TblInv (Nat.mod_lt _ (by decide)) (Nat.mod_lt _ (by decide))
        htbl hst'
      exact ⟨hpol, by simp, by simp, this.1⟩

theorem endFrameIf_EncInv {b : Bool} {e e' : Encoder} (h : EncInv e)
    (he : endFrameIf b e = .ok e') : EncInv e' := by
  cases b with
  | false =>
    rw [endFrameIf, if_neg (by simp)] at he
    cases he
    exact h
  | true =>
    rw [endFrameIf, if_pos rfl] at he
    exact endFrame_EncInv h he

theorem acceptChunk_EncInv (encLen : Nat → Nat) (prefixLen : Option Nat)
    {e : Encoder} (h : EncInv e) (toWrite : Nat)
    (hw : toWrite ≤ e.remainingFrameSize) :
    EncInv (acceptChunk encLen prefixLen e toWrite) := by
  unfold acceptChunk
  obtain ⟨hpol, hD, hDs, htbl⟩ := h
  have hMU : MAX_FRAME_SIZE < U64 := by decide
  have hnew : e.frameDSize + toWrite ≤ MAX_FRAME_SIZE ∧
      (∀ s, e.policy = .uncompressedFrameSize s → e.frameDSize + toWrite ≤ s) := by
    cases hp : e.policy with
    | compressedFrameSize size =>
      simp only [Encoder.remainingFrameSize, hp] at hw
      refine ⟨?_, ?_⟩
      · have h1 : toWrite ≤ MAX_FRAME_SIZE - e.frameDSize :=
          le_trans hw (min_le_right _ _)
        omega
      · intro s hs
        rw [hp] at hDs
        exact absurd hs (by simp)
    | uncompressedFrameSize size =>
      simp only [Encoder.remainingFrameSize, hp] at hw
      have hds := hDs size hp
      have h1 : toWrite ≤ size - e.frameDSize := le_trans hw (min_le_left _ _)
      have hpol' : size < U32 := by
        have := hpol
        rw [hp] at this
        exact this
      have hMU' : U32 ≤ MAX_FRAME_SIZE := by decide
      refine ⟨by omega, ?_⟩
      · intro s hs
        cases hs
        omega
  rw [show (e.frameDSize + toWrite) % U64 = e.frameDSize + toWrite from
    Nat.mod_eq_of_lt (by omega)]
  exact ⟨hpol, hnew.1, hnew.2, htbl⟩

theorem writeLoop_inv (encLen : Nat → Nat) (prefixLen : Option Nat) :
    ∀ fuel n (e : Encoder) r (e' : Encoder), EncInv e →
      writeLoop encLen prefixLen fuel e n = some (r, e') → EncInv e' := by
  intro fuel
  induction fuel with
  | zero =>
    intro n e r e' hinv h
    cases n with
    | zero =>
      simp only [writeLoop, Option.some.injEq, Prod.mk.injEq] at h
      exact h.2 ▸ hinv
    | succ m => exact absurd h (by simp [writeLoop])
  | succ fuel ih =>
    intro n e r e' hinv h
    cases n with
    | zero =>
      simp only [writeLoop, Option.some.injEq, Prod.mk.injEq] at h
      exact h.2 ▸ hinv
    | succ m =>
      simp only [writeLoop] at h
      split at h
      · exact absurd h (by simp)
      · rename_i e1 heq1
        -- the state after the possible leading EndFrame
        have hinv1 : EncInv e1 ∧ e1.remainingFrameSize =
            (if e.remainingFrameSize = 0 then e1.remainingFrameSize
             else e.remainingFrameSize) := by
          refine ⟨endFrameIf_EncInv hinv heq1, ?_⟩
          by_cases hr : e.remainingFrameSize = 0
          · simp [hr]
          · rw [endFrameIf, decide_eq_false hr] at heq1
            simp only [Bool.false_eq_true, if_false] at heq1
            cases heq1
            simp [hr]
        rw [← hinv1.2] at h
        have hinv2 : EncInv (acceptChunk encLen prefixLen e1
            (min (m + 1) e1.remainingFrameSize)) :=
          acceptChunk_EncInv encLen prefixLen hinv1.1 _ (min_le_right _ _)
        split at h
        · exact absurd h (by simp)
        · rename_i e3 heq3
          have hinv3 : EncInv e3 := endFrameIf_EncInv hinv2 heq3
          split at h
          · exact absurd h (by simp)
          · rename_i rest e4 heq4
            simp only [Option.some.injEq, Prod.mk.injEq] at h
            exact h.2 ▸ ih _ e3 _ _ hinv3 heq4

/-- The observable encoder operations: `Write`/`WriteWithPrefix` (with the
codec behaviour and fuel) and `EndFrame`. -/
inductive EncOp where
  | write (encLen : Nat → Nat) (prefixLen : Option Nat) (fuel n : Nat)
  | endFrame

/-- Run a sequence of encoder operations, stopping on any failure. -/
def runOps : List EncOp → Encoder → Option Encoder
  | [], e => some e
  | .write encLen prefixLen fuel n :: ops, e =>
    match writeLoop encLen prefixLen fuel e n with
    | none => none
    | some (_, e') => runOps ops e'
  | .endFrame :: ops, e =>
    match e.endFrame with
    | .error _ => none
    | .ok e' => runOps ops e'

theorem runOps_inv : ∀ (ops : List EncOp) (e e' : Encoder), EncInv e →
    runOps ops e = some e' → EncInv e' := by
  intro ops
  induction ops with
  | nil =>
    intro e e' hinv h
    simp only [runOps, Option.some.injEq] at h
    exact h ▸ hinv
  | cons op ops ih =>
    intro e e' hinv h
    cases op with
    | write encLen prefixLen fuel n =>
      simp only [runOps] at h
      split at h
      · exact absurd h (by simp)
      · rename_i r e1 heq
        exact ih e1 e' (writeLoop_inv encLen prefixLen fuel n e r e1 hinv heq) h
    | endFrame =>
      simp only [runOps] at h
      split at h
      · exact absurd h (by simp)
      · rename_i e1 heq
        exact ih e1 e' (endFrame_EncInv hinv heq) h

/-- **C2 is false as stated**: with policy `CompressedFrameSize{2^32 - 1}`
and a codec that compresses every chunk to 10 bytes, a single `Write` of
`2^32` bytes accepts all `2^32` bytes into one frame (the decompressed
accumulator reaches `2^32 > 2^32 - 1` at the closing `EndFrame`), and the
frame recorded in the seek table has decompressed size
`2^32 % 2^32 = 0 ≠ 2^32`. -/
theorem encoder_cap_cx :
    ((writeLoop (fun _ => 10) none 3
        (newEncoder (.compressedFrameSize (U32 - 1))) U32).map
      (fun p => (p.1, p.2.seekTable.numFrames, p.2.seekTable.frameSizeDecomp 0,
                 p.2.seekTable.frameEndDecomp 0))) =
      some (U32, 1, .ok 0, .ok 0) ∧ (0 : Nat) ≠ U32 :=
  ⟨rfl, by decide⟩

/-- **C2 (amended).** For every sequence of successful encoder operations
from a fresh encoder (under any `uint32`-sized policy and any codec
behaviour): the per-frame decompressed accumulator never exceeds `2^32`
(it can reach exactly `2^32` under `CompressedFrameSize`, in which case the
recorded size wraps to `frameDSize % 2^32`); under
`UncompressedFrameSize{s}` it never exceeds `s ≤ 2^32 - 1`, so the recorded
decompressed size equals the bytes accepted into the frame; and every frame
recorded in the seek table satisfies
`cumulative_*[i+1] - cumulative_*[i] ≤ 2^32 - 1` for both offset kinds. -/
theorem encoder_frame_size_bounds (policy : FrameSizePolicy) (ops : List EncOp)
    (e' : Encoder) (hpol : policyU32 policy)
    (h : runOps ops (newEncoder policy) = some e') :
    e'.frameDSize ≤ MAX_FRAME_SIZE ∧
    (∀ s, e'.policy = .uncompressedFrameSize s → e'.frameDSize ≤ s) ∧
    (∀ i v, e'.seekTable.frameSizeDecomp i = .ok v → v ≤ U32 - 1) ∧
    (∀ i v, e'.seekTable.frameSizeComp i = .ok v → v ≤ U32 - 1) := by
  have hinv0 : EncInv (newEncoder policy) :=
    ⟨hpol, Nat.zero_le _, fun _ _ => Nat.zero_le _, TblInv_new⟩
  have hinv := runOps_inv ops _ e' hinv0 h
  obtain ⟨-, hD, hDs, htbl⟩ := hinv
  refine ⟨hD, hDs, ?_, ?_⟩
  · intro i v hv
    have := (TblInv_frameSize htbl i v).1 hv
    omega
  · intro i v hv
    have := (TblInv_frameSize htbl i v).2 hv
    omega

/-- Witness for C2 (amended): the empty operation sequence on a fresh
encoder with `UncompressedFrameSize{100}`. -/
theorem encoder_frame_size_bounds_witness :
    (newEncoder (.uncompressedFrameSize 100)).frameDSize ≤ MAX_FRAME_SIZE :=
  (encoder_frame_size_bounds (.uncompressedFrameSize 100) [] _
    (show (100 : Nat) < U32 by decide) rfl).1

/-! ## Claim C4: `findFrameAtOffset` -/

/-- The cumulative decompressed offset at boundary `i`
(`entries[i].DecompressedOffset`). -/
def cumD (st : SeekTable) (i : Nat) : Nat :=
  (st.entries.getD i ⟨0, 0⟩).decompressedOffset

theorem cumD_lt_cumD {st : SeekTable}
    (hmono : ∀ i, i + 1 < st.entries.length → cumD st i < cumD st (i + 1)) :
    ∀ {a b : Nat}, a < b → b < st.entries.length → cumD st a < cumD st b := by
  intro a b hab hb
  induction b with
  | zero => omega
  | succ k ih =>
    rcases Nat.lt_or_ge a k with hak | hak
    · exact lt_trans (ih hak (by omega)) (hmono k hb)
    · have hak' : a = k := by omega
      subst hak'
      exact hmono a hb

theorem cumD_le_cumD {st : SeekTable}
    (hmono : ∀ i, i + 1 < st.entries.length → cumD st i < cumD st (i + 1)) :
    ∀ {a b : Nat}, a ≤ b → b < st.entries.length → cumD st a ≤ cumD st b := by
  intro a b hab hb
  rcases Nat.lt_or_ge a b with h | h
  · exact le_of_lt (cumD_lt_cumD hmono h hb)
  · have : a = b := by omega
    subst this
    exact le_rfl

theorem mustFrameEndDecomp_eq {st : SeekTable} (i : Nat)
    (hlen : st.entries.length ≤ SEEKABLE_MAX_FRAMES + 1)
    (hi : i < st.entries.length - 1) :
    mustFrameEndDecomp st i = cumD st (i + 1) := by
  have hnf : st.numFrames = st.entries.length - 1 := by
    have h1 : st.entries.length - 1 < U32 := by
      have : (SEEKABLE_MAX_FRAMES : Nat) + 1 < U32 := by decide
      omega
    simpa [SeekTable.numFrames] using Nat.mod_eq_of_lt h1
  rw [mustFrameEndDecomp, SeekTable.frameEndDecomp, hnf, if_neg (by omega)]
  rfl

theorem findLoop_spec {st : SeekTable} {off i : Nat}
    (hlen : st.entries.length ≤ SEEKABLE_MAX_FRAMES + 1)
    (hmono : ∀ j, j + 1 < st.entries.length → cumD st j < cumD st (j + 1))
    (hoff_lo : cumD st i ≤ off) (hoff_hi : off < cumD st (i + 1)) :
    ∀ fuel low high, low < high → high ≤ st.entries.length - 1 →
      high - low ≤ fuel → low ≤ i → i ≤ high →
      (findLoop st off fuel low high).1 + 1 = (findLoop st off fuel low high).2 ∧
      (findLoop st off fuel low high).1 ≤ i ∧
      i ≤ (findLoop st off fuel low high).2 ∧
      (findLoop st off fuel low high).2 ≤ st.entries.length - 1 := by
  intro fuel
  induction fuel with
  | zero =>
    intro low high h1 h2 hfuel hlo hhi
    omega
  | succ fuel ih =>
    intro low high h1 h2 hfuel hlo hhi
    by_cases hc : low + 1 < high
    · rw [findLoop, if_pos hc]
      have hmidlo : low < (low + high) / 2 := by omega
      have hmidhi : (low + high) / 2 < high := by omega
      have hmidN : (low + high) / 2 < st.entries.length - 1 := by omega
      rw [mustFrameEndDecomp_eq _ hlen hmidN]
      by_cases hoff : off < cumD st ((low + high) / 2 + 1)
      · rw [if_pos hoff]
        have hi_le : i ≤ (low + high) / 2 := by
          by_contra hcon
          have h3 : (low + high) / 2 + 1 ≤ i := by omega
          have := cumD_le_cumD hmono h3 (by omega)
          omega
        exact ih low ((low + high) / 2) hmidlo (by omega) (by omega) hlo hi_le
      · rw [if_neg hoff]
        have hi_ge : (low + high) / 2 ≤ i := by
          by_contra hcon
          have h3 : i + 1 ≤ (low + high) / 2 + 1 := by omega
          have := cumD_le_cumD hmono h3 (by omega)
          omega
        exact ih ((low + high) / 2) high hmidhi h2 (by omega) hi_ge hhi
    · rw [findLoop, if_neg hc]
      omega

/-- **C4.** For every seek table (of this library, so with at most `2^27`
frames) with `N ≥ 1` frames and strictly increasing cumulative decompressed
offsets: `findFrameAtOffset` returns the unique `i` with
`cumulative_decompressed[i] ≤ offset < cumulative_decompressed[i+1]`;
consequently `findFrameAtOffset(cumulative_decompressed[i]) = i` for every
`i < N`, and `findFrameAtOffset(v) = N - 1` for every
`v ≥ cumulative_decompressed[N]`. -/
theorem findFrameAtOffset_correct (st : SeekTable)
    (hlen : st.entries.length ≤ SEEKABLE_MAX_FRAMES + 1)
    (hN : 1 ≤ st.entries.length - 1)
    (hmono : ∀ j, j + 1 < st.entries.length → cumD st j < cumD st (j + 1)) :
    (∀ i off, i < st.entries.length - 1 → cumD st i ≤ off →
      off < cumD st (i + 1) → findFrameAtOffset st off = i) ∧
    (∀ i, i < st.entries.length - 1 →
      findFrameAtOffset st (cumD st i) = i) ∧
    (∀ off, cumD st (st.entries.length - 1) ≤ off →
      findFrameAtOffset st off = st.entries.length - 1 - 1) := by
  have hnf : st.numFrames = st.entries.length - 1 := by
    have h1 : st.entries.length - 1 < U32 := by
      have : (SEEKABLE_MAX_FRAMES : Nat) + 1 < U32 := by decide
      omega
    simpa [SeekTable.numFrames] using Nat.mod_eq_of_lt h1
  have hmain : ∀ i off, i < st.entries.length - 1 → cumD st i ≤ off →
      off < cumD st (i + 1) → findFrameAtOffset st off = i := by
    intro i off hi hlo hhi
    by_cases h0 : off = 0
    · -- the sentinel-return branch: only `i = 0` can satisfy the bounds
      subst h0
      have hi0 : i = 0 := by
        by_contra hcon
        have h1 : 1 ≤ i := by omega
        have := cumD_lt_cumD hmono (show 0 < i by omega) (by omega)
        omega
      subst hi0
      rw [findFrameAtOffset, if_pos rfl]
    · rw [findFrameAtOffset, if_neg h0]
      have hoffN : off < cumD st (st.entries.length - 1) := by
        rcases Nat.lt_or_ge (i + 1) (st.entries.length - 1) with h | h
        · exact lt_of_lt_of_le hhi (cumD_le_cumD hmono (by omega) (by omega))
        · have : i + 1 = st.entries.length - 1 := by omega
          rw [← this]
          exact hhi
      rw [hnf]
      rw [mustFrameEndDecomp_eq _ hlen (by omega)]
      have hnot : ¬ off ≥ cumD st (st.entries.length - 1 - 1 + 1) := by
        have he : st.entries.length - 1 - 1 + 1 = st.entries.length - 1 := by omega
        rw [he]
        omega
      rw [if_neg hnot]
      have hspec := findLoop_spec hlen hmono hlo hhi
        (st.entries.length - 1) 0 (st.entries.length - 1) (by omega) le_rfl
        (by omega) (Nat.zero_le _) (by omega)
      obtain ⟨hadj, hlo', hhi', hbound⟩ := hspec
      have hlt : (findLoop st off (st.entries.length - 1) 0
          (st.entries.length - 1)).1 < st.entries.length - 1 := by omega
      rw [mustFrameEndDecomp_eq _ hlen hlt]
      by_cases hfin : off < cumD st ((findLoop st off (st.entries.length - 1) 0
          (st.entries.length - 1)).1 + 1)
      · rw [if_pos hfin]
        -- `i` cannot exceed the low end: offsets below `cum (low+1)` force `i ≤ low`
        by_contra hcon
        have h3 : (findLoop st off (st.entries.length - 1) 0
            (st.entries.length - 1)).1 + 1 ≤ i := by omega
        have := cumD_le_cumD hmono h3 (by omega)
        omega
      · rw [if_neg hfin]
        -- `off ≥ cum (low+1)` forces `i ≥ low + 1 = high`
        by_contra hcon
        have h3 : i + 1 ≤ (findLoop st off (st.entries.length - 1) 0
            (st.entries.length - 1)).1 + 1 := by omega
        have := cumD_le_cumD hmono h3 (by omega)
        omega
  refine ⟨hmain, ?_, ?_⟩
  · intro i hi
    exact hmain i (cumD st i) hi le_rfl (hmono i (by omega))
  · intro off hoff
    have h0 : off ≠ 0 := by
      have h1 : cumD st 0 < cumD st (st.entries.length - 1) :=
        cumD_lt_cumD hmono (by omega) (by omega)
      omega
    rw [findFrameAtOffset, if_neg h0, hnf]
    rw [mustFrameEndDecomp_eq _ hlen (by omega)]
    have he : st.entries.length - 1 - 1 + 1 = st.entries.length - 1 := by omega
    rw [if_pos (by rw [he]; omega)]

/-- Witness for C4: the three-frame table with decompressed boundaries
`0, 10, 20`: looking up offset `10` yields frame `1`. -/
theorem findFrameAtOffset_correct_witness :
    findFrameAtOffset tbl2 (cumD tbl2 1) = 1 :=
  (findFrameAtOffset_correct tbl2 (by decide) (by decide)
    (by
      intro j hj
      have hj3 : j + 1 < 3 := hj
      have hj01 : j = 0 ∨ j = 1 := by omega
      rcases hj01 with h | h <;> subst h <;> decide)).2.1
    1 (by decide)

/-! ## Serialization (`Serializer`, `WriteTo`) -/

/-- `Serializer` from `seektable.go`. -/
structure Serializer where
  frames : List Frame
  frameIndex : Nat
  writePos : Nat
  format : Format
deriving DecidableEq, Repr

/-- The per-frame sizes recorded by `NewSerializer`: `uint32` casts of the
differences of adjacent `uint64` cumulative offsets. -/
def tableFrames (st : SeekTable) : List Frame :=
  (List.range (st.entries.length - 1)).map (fun i =>
    ⟨wsub64 (st.entries.getD (i + 1) ⟨0, 0⟩).compressedOffset
        (st.entries.getD i ⟨0, 0⟩).compressedOffset % U32,
     wsub64 (st.entries.getD (i + 1) ⟨0, 0⟩).decompressedOffset
        (st.entries.getD i ⟨0, 0⟩).decompressedOffset % U32⟩)

/-- `SeekTable.NewSerializer`. -/
def SeekTable.newSerializer (st : SeekTable) (format : Format) : Serializer :=
  ⟨tableFrames st, 0, 0, format⟩

/-- `Serializer.frameSize`: `9 + 17·N`, the skippable content size. -/
def Serializer.frameSize (s : Serializer) : Nat :=
  SEEK_TABLE_FOOTER_SIZE + s.frames.length * SIZE_PER_FRAME

/-- `Serializer.EncodedLen`: `8 + 9 + 17·N`. -/
def Serializer.encodedLen (s : Serializer) : Nat :=
  SKIPPABLE_HEADER_SIZE + SEEK_TABLE_FOOTER_SIZE + s.frames.length * SIZE_PER_FRAME

/-- The 8-byte skippable header assembled by `WriteTo`. -/
def Serializer.headerBytes (s : Serializer) : List Nat :=
  le32 SKIPPABLE_MAGIC_NUMBER ++ le32 (s.frameSize % U32)

/-- `Serializer.makeIntegrity`: the 9-byte integrity record. -/
def Serializer.makeIntegrity (s : Serializer) : List Nat :=
  le32 (s.frames.length % U32) ++ [0] ++ le32 SEEKABLE_MAGIC_NUMBER

/-- The 17-byte index slot assembled by `WriteTo` for one frame (bytes 8–16
stay zero: one reserved byte and the zero padding of the 17-byte buffer). -/
def slotBytes (f : Frame) : List Nat :=
  le32 f.compressedSize ++ le32 f.decompressedSize ++ List.replicate 9 0

/-- The slot-array base offset inside the serialized image. -/
def Serializer.startPos (s : Serializer) : Nat :=
  SKIPPABLE_HEADER_SIZE + (if s.format = .head then SEEK_TABLE_FOOTER_SIZE else 0)

/-- The skippable-header section of `WriteTo` (seektable.go lines 173–187).
Returns the bytes emitted, the updated serializer and the remaining buffer
space. -/
def writeHeader (s : Serializer) (remaining : Nat) : List Nat × Serializer × Nat :=
  if s.writePos < SKIPPABLE_HEADER_SIZE then
    (((s.headerBytes).drop s.writePos).take
        (min (SKIPPABLE_HEADER_SIZE - s.writePos) remaining),
     { s with writePos := s.writePos + min (SKIPPABLE_HEADER_SIZE - s.writePos) remaining },
     remaining - min (SKIPPABLE_HEADER_SIZE - s.writePos) remaining)
  else ([], s, remaining)

/-- The head-format integrity section of `WriteTo` (lines 189–202). -/
def writeHeadIntegrity (s : Serializer) (remaining : Nat) :
    List Nat × Serializer × Nat :=
  if s.format = .head ∧ SKIPPABLE_HEADER_SIZE ≤ s.writePos ∧
      s.writePos < SKIPPABLE_HEADER_SIZE + SEEK_TABLE_FOOTER_SIZE then
    ((s.makeIntegrity.drop (s.writePos - SKIPPABLE_HEADER_SIZE)).take
        (min (SEEK_TABLE_FOOTER_SIZE - (s.writePos - SKIPPABLE_HEADER_SIZE))
          remaining),
     { s with writePos := s.writePos + min (SEEK_TABLE_FOOTER_SIZE - (s.writePos - SKIPPABLE_HEADER_SIZE)) remaining },
     remaining -
       min (SEEK_TABLE_FOOTER_SIZE - (s.writePos - SKIPPABLE_HEADER_SIZE))
         remaining)
  else ([], s, remaining)

/-- The frame-slot loop of `WriteTo` (lines 204–240), with fuel (each
iteration emits at least one byte, so fuel `remaining` suffices). -/
def writeFrames : Nat → Serializer → Nat → List Nat × Serializer × Nat
  | 0, s, remaining => ([], s, remaining)
  | fuel + 1, s, remaining =>
    if s.frameIndex < s.frames.length ∧ 0 < remaining then
      if s.frames.length ≤ (s.writePos - s.startPos) / SIZE_PER_FRAME then
        ([], s, remaining)
      else
        match writeFrames fuel
          { s with
            writePos := s.writePos + min (SIZE_PER_FRAME - (s.writePos - s.startPos) % SIZE_PER_FRAME) remaining,
            frameIndex := if (s.writePos - s.startPos) % SIZE_PER_FRAME + min (SIZE_PER_FRAME - (s.writePos - s.startPos) % SIZE_PER_FRAME) remaining = SIZE_PER_FRAME then s.frameIndex + 1 else s.frameIndex }
          (remaining -
            min (SIZE_PER_FRAME - (s.writePos - s.startPos) % SIZE_PER_FRAME)
              remaining) with
        | (outRest, s', rem') =>
          (((slotBytes (s.frames.getD ((s.writePos - s.startPos) / SIZE_PER_FRAME)
              ⟨0, 0⟩)).drop ((s.writePos - s.startPos) % SIZE_PER_FRAME)).take
            (min (SIZE_PER_FRAME - (s.writePos - s.startPos) % SIZE_PER_FRAME)
              remaining) ++ outRest, s', rem')
    else ([], s, remaining)

/-- The foot-format integrity section of `WriteTo` (lines 242–257). -/
def writeFootIntegrity (s : Serializer) (remaining : Nat) :
    List Nat × Serializer :=
  if s.format = .foot ∧
      SKIPPABLE_HEADER_SIZE + s.frames.length * SIZE_PER_FRAME ≤ s.writePos ∧
      0 < remaining then
    ((s.makeIntegrity.drop
        (s.writePos - (SKIPPABLE_HEADER_SIZE + s.frames.length * SIZE_PER_FRAME))).take
        (min (SEEK_TABLE_FOOTER_SIZE -
          (s.writePos - (SKIPPABLE_HEADER_SIZE + s.frames.length * SIZE_PER_FRAME)))
          remaining),
     { s with writePos := s.writePos + min (SEEK_TABLE_FOOTER_SIZE - (s.writePos - (SKIPPABLE_HEADER_SIZE + s.frames.length * SIZE_PER_FRAME))) remaining })
  else ([], s)

/-- `Serializer.WriteTo` (seektable.go lines 168–260): returns the bytes
written into a buffer of size `bufLen` together with the updated serializer
(the Go method mutates the receiver and returns the byte count). -/
def Serializer.writeTo (s : Serializer) (bufLen : Nat) : List Nat × Serializer :=
  match writeHeader s bufLen with
  | (out1, s1, rem1) =>
    match writeHeadIntegrity s1 rem1 with
    | (out2, s2, rem2) =>
      match writeFrames rem2 s2 rem2 with
      | (out3, s3, rem3) =>
        match writeFootIntegrity s3 rem3 with
        | (out4, s4) => (out1 ++ out2 ++ out3 ++ out4, s4)

/-- The full serialized image that the `WriteTo` cursor walks over. -/
def Serializer.stream (s : Serializer) : List Nat :=
  s.headerBytes ++ (if s.format = .head then s.makeIntegrity else []) ++
  (s.frames.map slotBytes).flatten ++
  (if s.format = .foot then s.makeIntegrity else [])

@[simp] theorem headerBytes_length (s : Serializer) : s.headerBytes.length = 8 := rfl

@[simp] theorem makeIntegrity_length (s : Serializer) :
    s.makeIntegrity.length = 9 := rfl

@[simp] theorem slotBytes_length (f : Frame) : (slotBytes f).length = 17 := rfl

theorem slots_flatten_length (fl : List Frame) :
    ((fl.map slotBytes).flatten).length = fl.length * SIZE_PER_FRAME := by
  induction fl with
  | nil => rfl
  | cons f fl ih =>
    simp only [List.map_cons, List.flatten_cons, List.length_append, ih,
      slotBytes_length, List.length_cons, SIZE_PER_FRAME]
    ring

theorem slots_flatten_length_sum (fl : List Frame) :
    (List.map (List.length ∘ slotBytes) fl).sum = fl.length * SIZE_PER_FRAME := by
  induction fl with
  | nil => rfl
  | cons f fl ih =>
    simp only [List.map_cons, List.sum_cons, ih, Function.comp_apply,
      slotBytes_length, List.length_cons, SIZE_PER_FRAME]
    ring

theorem stream_length (s : Serializer) : s.stream.length = s.encodedLen := by
  cases hf : s.format <;>
    simp [Serializer.stream, Serializer.encodedLen, hf,
      slots_flatten_length_sum, SKIPPABLE_HEADER_SIZE, SEEK_TABLE_FOOTER_SIZE] <;>
    omega

theorem seg_split (X Y : List Nat) (p rem : Nat) :
    ((X ++ Y).drop p).take rem =
      ((X.drop p).take rem) ++
      ((Y.drop ((p + ((X.drop p).take rem).length) - X.length)).take
        (rem - ((X.drop p).take rem).length)) := by
  rw [List.drop_append_eq_append_drop, List.take_append_eq_append_take]
  have h1 : rem - (X.drop p).length = rem - ((X.drop p).take rem).length := by
    simp only [List.length_take, List.length_drop]
    omega
  have h2 : p - X.length = (p + ((X.drop p).take rem).length) - X.length := by
    simp only [List.length_take, List.length_drop]
    omega
  rw [h1, h2]

theorem writeHeader_spec {s : Serializer} {rem : Nat} {out : List Nat}
    {s' : Serializer} {rem' : Nat} (h : writeHeader s rem = (out, s', rem')) :
    out = ((s.headerBytes).drop s.writePos).take rem ∧
    s' = { s with writePos := s.writePos + out.length } ∧
    rem' = rem - out.length := by
  unfold writeHeader at h
  split at h
  · rename_i hp
    simp only [Prod.mk.injEq] at h
    obtain ⟨h1, h2, h3⟩ := h
    have hlen : out.length = min (SKIPPABLE_HEADER_SIZE - s.writePos) rem := by
      rw [← h1]
      simp only [List.length_take, List.length_drop, headerBytes_length]
      simp only [SKIPPABLE_HEADER_SIZE]
      omega
    refine ⟨?_, ?_, ?_⟩
    · rw [← h1]
      apply List.take_eq_take.mpr
      simp only [List.length_drop, headerBytes_length, SKIPPABLE_HEADER_SIZE] at *
      omega
    · rw [← h2, hlen]
    · rw [← h3, hlen]
  · rename_i hp
    simp only [Prod.mk.injEq] at h
    obtain ⟨h1, h2, h3⟩ := h
    subst h1; subst h2; subst h3
    have hdrop : (s.headerBytes).drop s.writePos = [] := by
      apply List.drop_eq_nil_of_le
      simp only [headerBytes_length, SKIPPABLE_HEADER_SIZE] at *
      omega
    exact ⟨by rw [hdrop, List.take_nil], rfl, rfl⟩

theorem writeHeadIntegrity_spec {s : Serializer} {rem : Nat} {out : List Nat}
    {s' : Serializer} {rem' : Nat}
    (hpre : SKIPPABLE_HEADER_SIZE ≤ s.writePos ∨ rem = 0)
    (h : writeHeadIntegrity s rem = (out, s', rem')) :
    out = (((if s.format = .head then s.makeIntegrity else []).drop
      (s.writePos - SKIPPABLE_HEADER_SIZE)).take rem) ∧
    s' = { s with writePos := s.writePos + out.length } ∧
    rem' = rem - out.length := by
  unfold writeHeadIntegrity at h
  split at h
  · rename_i hp
    obtain ⟨hfmt, hp1, hp2⟩ := hp
    simp only [Prod.mk.injEq] at h
    obtain ⟨h1, h2, h3⟩ := h
    have hlen : out.length =
        min (SEEK_TABLE_FOOTER_SIZE - (s.writePos - SKIPPABLE_HEADER_SIZE)) rem := by
      rw [← h1]
      simp only [List.length_take, List.length_drop, makeIntegrity_length]
      simp only [SEEK_TABLE_FOOTER_SIZE]
      omega
    refine ⟨?_, ?_, ?_⟩
    · rw [← h1, if_pos hfmt]
      apply List.take_eq_take.mpr
      simp only [List.length_drop, makeIntegrity_length, SEEK_TABLE_FOOTER_SIZE,
        SKIPPABLE_HEADER_SIZE] at *
      omega
    · rw [← h2, hlen]
    · rw [← h3, hlen]
  · rename_i hp
    simp only [Prod.mk.injEq] at h
    obtain ⟨h1, h2, h3⟩ := h
    have hout : (((if s.format = .head then s.makeIntegrity else []).drop
        (s.writePos - SKIPPABLE_HEADER_SIZE)).take rem) = [] := by
      by_cases hfmt : s.format = .head
      · rw [if_pos hfmt]
        rcases hpre with hpre | hpre
        · have hge : SKIPPABLE_HEADER_SIZE + SEEK_TABLE_FOOTER_SIZE ≤ s.writePos := by
            rcases Nat.lt_or_ge s.writePos
              (SKIPPABLE_HEADER_SIZE + SEEK_TABLE_FOOTER_SIZE) with hlt | hge
            · exact absurd ⟨hfmt, hpre, hlt⟩ hp
            · exact hge
          rw [List.drop_eq_nil_of_le (by
            simp only [makeIntegrity_length, SEEK_TABLE_FOOTER_SIZE,
              SKIPPABLE_HEADER_SIZE] at *
            omega), List.take_nil]
        · rw [hpre, List.take_zero]
      · rw [if_neg hfmt]
        simp
    subst h1; subst h2; subst h3
    exact ⟨hout.symm, rfl, rfl⟩

theorem writeFootIntegrity_spec {s : Serializer} {rem : Nat} {out : List Nat}
    {s' : Serializer}
    (hpre : SKIPPABLE_HEADER_SIZE + s.frames.length * SIZE_PER_FRAME ≤ s.writePos ∨
      rem = 0)
    (h : writeFootIntegrity s rem = (out, s')) :
    out = (((if s.format = .foot then s.makeIntegrity else []).drop
      (s.writePos - (SKIPPABLE_HEADER_SIZE + s.frames.length * SIZE_PER_FRAME))).take
        rem) ∧
    s' = { s with writePos := s.writePos + out.length } := by
  unfold writeFootIntegrity at h
  split at h
  · rename_i hp
    obtain ⟨hfmt, hp1, hp2⟩ := hp
    simp only [Prod.mk.injEq] at h
    obtain ⟨h1, h2⟩ := h
    have hlen : out.length =
        min (SEEK_TABLE_FOOTER_SIZE -
          (s.writePos - (SKIPPABLE_HEADER_SIZE + s.frames.length * SIZE_PER_FRAME)))
          rem := by
      rw [← h1]
      simp only [List.length_take, List.length_drop, makeIntegrity_length]
      simp only [SEEK_TABLE_FOOTER_SIZE]
      omega
    refine ⟨?_, ?_⟩
    · rw [← h1, if_pos hfmt]
      apply List.take_eq_take.mpr
      simp only [List.length_drop, makeIntegrity_length, SEEK_TABLE_FOOTER_SIZE] at *
      omega
    · rw [← h2, hlen]
  · rename_i hp
    simp only [Prod.mk.injEq] at h
    obtain ⟨h1, h2⟩ := h
    have hout : (((if s.format = .foot then s.makeIntegrity else []).drop
        (s.writePos - (SKIPPABLE_HEADER_SIZE + s.frames.length * SIZE_PER_FRAME))).take
          rem) = [] := by
      by_cases hfmt : s.format = .foot
      · rw [if_pos hfmt]
        rcases Nat.eq_zero_or_pos rem with hrem | hrem
        · rw [hrem, List.take_zero]
        · rcases hpre with hpre | hpre
          · exact absurd ⟨hfmt, hpre, hrem⟩ hp
          · omega
      · rw [if_neg hfmt]
        simp
    subst h1; subst h2
    exact ⟨hout.symm, rfl⟩

theorem flatten_slots_drop_mul (fl : List Frame) :
    ∀ k, ((fl.map slotBytes).flatten).drop (SIZE_PER_FRAME * k) =
      ((fl.drop k).map slotBytes).flatten := by
  induction fl with
  | nil => intro k; simp
  | cons f fl ih =>
    intro k
    cases k with
    | zero => simp
    | succ k =>
      simp only [List.map_cons, List.flatten_cons, List.drop_succ_cons]
      rw [List.drop_append_eq_append_drop]
      have h1 : (slotBytes f).drop (SIZE_PER_FRAME * (k + 1)) = [] :=
        List.drop_eq_nil_of_le (by simp only [slotBytes_length, SIZE_PER_FRAME]; omega)
      have h2 : SIZE_PER_FRAME * (k + 1) - (slotBytes f).length = SIZE_PER_FRAME * k := by
        simp only [slotBytes_length, SIZE_PER_FRAME]
        omega
      rw [h1, h2, List.nil_append, ih k]

theorem writeFrames_spec :
    ∀ (fuel : Nat) (s : Serializer) (rem : Nat) (out : List Nat) (s' : Serializer)
      (rem' : Nat),
      rem ≤ fuel →
      s.frameIndex = min s.frames.length ((s.writePos - s.startPos) / SIZE_PER_FRAME) →
      (s.startPos ≤ s.writePos ∨ rem = 0) →
      writeFrames fuel s rem = (out, s', rem') →
      out = (((s.frames.map slotBytes).flatten).drop (s.writePos - s.startPos)).take
        rem ∧
      s' = { s with writePos := s.writePos + out.length, frameIndex := min s.frames.length ((s.writePos + out.length - s.startPos) / SIZE_PER_FRAME) } ∧
      rem' = rem - out.length := by
  intro fuel
  induction fuel with
  | zero =>
    intro s rem out s' rem' hfuel hfi hpre h
    have hrem : rem = 0 := by omega
    subst hrem
    simp only [writeFrames, Prod.mk.injEq] at h
    obtain ⟨h1, h2, h3⟩ := h
    subst h1; subst h2; subst h3
    refine ⟨by simp, ?_, rfl⟩
    simp only [List.length_nil, Nat.add_zero, ← hfi]
  | succ fuel ih =>
    intro s rem out s' rem' hfuel hfi hpre h
    simp only [writeFrames] at h
    split at h
    · rename_i hguard
      obtain ⟨hA, hB⟩ := hguard
      have hsp : s.startPos ≤ s.writePos := by
        rcases hpre with h' | h'
        · exact h'
        · omega
      have hq : (s.writePos - s.startPos) / SIZE_PER_FRAME < s.frames.length := by
        rcases Nat.lt_or_ge ((s.writePos - s.startPos) / SIZE_PER_FRAME)
          s.frames.length with hlt | hge
        · exact hlt
        · rw [hfi, Nat.min_eq_left hge] at hA
          omega
      rw [if_neg (Nat.not_le.mpr hq)] at h
      rcases hrec : writeFrames fuel
        { s with
          writePos := s.writePos + min (SIZE_PER_FRAME - (s.writePos - s.startPos) % SIZE_PER_FRAME) rem,
          frameIndex := if (s.writePos - s.startPos) % SIZE_PER_FRAME + min (SIZE_PER_FRAME - (s.writePos - s.startPos) % SIZE_PER_FRAME) rem = SIZE_PER_FRAME then s.frameIndex + 1 else s.frameIndex }
        (rem - min (SIZE_PER_FRAME - (s.writePos - s.startPos) % SIZE_PER_FRAME) rem)
        with ⟨outRest, s'', rem''⟩
      rw [hrec] at h
      simp only [Prod.mk.injEq] at h
      obtain ⟨h1, h2, h3⟩ := h
      subst h1; subst h2; subst h3
      have hdm := Nat.div_add_mod (s.writePos - s.startPos) SIZE_PER_FRAME
      have hrlt : (s.writePos - s.startPos) % SIZE_PER_FRAME < SIZE_PER_FRAME :=
        Nat.mod_lt _ (by decide)
      -- the recursive call satisfies the invariants
      have hfi' : ({ s with
          writePos := s.writePos + min (SIZE_PER_FRAME - (s.writePos - s.startPos) % SIZE_PER_FRAME) rem,
          frameIndex := if (s.writePos - s.startPos) % SIZE_PER_FRAME + min (SIZE_PER_FRAME - (s.writePos - s.startPos) % SIZE_PER_FRAME) rem = SIZE_PER_FRAME then s.frameIndex + 1 else s.frameIndex } : Serializer).frameIndex =
          min s.frames.length (((s.writePos + min (SIZE_PER_FRAME - (s.writePos - s.startPos) % SIZE_PER_FRAME) rem) - s.startPos) / SIZE_PER_FRAME) := by
        show (if (s.writePos - s.startPos) % SIZE_PER_FRAME + min (SIZE_PER_FRAME - (s.writePos - s.startPos) % SIZE_PER_FRAME) rem = SIZE_PER_FRAME then s.frameIndex + 1 else s.frameIndex) = _
        simp only [SIZE_PER_FRAME] at hdm hrlt hfi hq ⊢
        split <;> omega
      have hspec := ih _ _ _ _ _ (by omega) hfi'
        (by left; exact le_trans hsp (Nat.le_add_right _ _)) hrec
      obtain ⟨ho, hs, hr⟩ := hspec
      -- split the flattened slots at the current frame
      have hsplit : ((s.frames.map slotBytes).flatten).drop
          (s.writePos - s.startPos) =
          (slotBytes (s.frames.getD ((s.writePos - s.startPos) / SIZE_PER_FRAME)
            ⟨0, 0⟩)).drop ((s.writePos - s.startPos) % SIZE_PER_FRAME) ++
          ((s.frames.drop ((s.writePos - s.startPos) / SIZE_PER_FRAME + 1)).map
            slotBytes).flatten := by
        conv_lhs => rw [← hdm]
        rw [← List.drop_drop, flatten_slots_drop_mul,
          List.drop_eq_getElem_cons hq, List.map_cons, List.flatten_cons,
          List.drop_append_eq_append_drop,
          List.getD_eq_getElem _ _ hq]
        have hz : (s.writePos - s.startPos) % SIZE_PER_FRAME - (slotBytes s.frames[(s.writePos - s.startPos) / SIZE_PER_FRAME]).length = 0 := by
          simp only [slotBytes_length, SIZE_PER_FRAME] at hrlt ⊢
          omega
        rw [hz, List.drop_zero]
      have hheadlen : ((slotBytes (s.frames.getD ((s.writePos - s.startPos) / SIZE_PER_FRAME) ⟨0, 0⟩)).drop ((s.writePos - s.startPos) % SIZE_PER_FRAME)).length = SIZE_PER_FRAME - (s.writePos - s.startPos) % SIZE_PER_FRAME := by
        simp only [List.length_drop, slotBytes_length, SIZE_PER_FRAME]
      have hout1 : (((slotBytes (s.frames.getD ((s.writePos - s.startPos) / SIZE_PER_FRAME) ⟨0, 0⟩)).drop ((s.writePos - s.startPos) % SIZE_PER_FRAME)).take (min (SIZE_PER_FRAME - (s.writePos - s.startPos) % SIZE_PER_FRAME) rem)).length = min (SIZE_PER_FRAME - (s.writePos - s.startPos) % SIZE_PER_FRAME) rem := by
        simp only [List.length_take, hheadlen]
        omega
      -- characterize the recursive output against the remaining slots
      have hrest : outRest = (((s.frames.drop ((s.writePos - s.startPos) / SIZE_PER_FRAME + 1)).map slotBytes).flatten).take (rem - min (SIZE_PER_FRAME - (s.writePos - s.startPos) % SIZE_PER_FRAME) rem) := by
        by_cases hfull : SIZE_PER_FRAME - (s.writePos - s.startPos) % SIZE_PER_FRAME ≤ rem
        · have hidx : s.writePos + min (SIZE_PER_FRAME - (s.writePos - s.startPos) % SIZE_PER_FRAME) rem - s.startPos = SIZE_PER_FRAME * ((s.writePos - s.startPos) / SIZE_PER_FRAME + 1) := by
            simp only [SIZE_PER_FRAME] at *
            omega
          rw [ho]
          show List.take _ (List.drop (s.writePos + min (SIZE_PER_FRAME - (s.writePos - s.startPos) % SIZE_PER_FRAME) rem - s.startPos) _) = _
          rw [hidx, flatten_slots_drop_mul]
        · have hz : rem - min (SIZE_PER_FRAME - (s.writePos - s.startPos) % SIZE_PER_FRAME) rem = 0 := by
            omega
          rw [ho, hz, List.take_zero, List.take_zero]
      constructor
      · -- output characterization
        rw [hsplit, List.take_append_eq_append_take]
        congr 1
        · apply List.take_eq_take.mpr
          rw [hheadlen]
          omega
        · rw [hrest]
          apply List.take_eq_take.mpr
          omega
      refine ⟨?_, ?_⟩
      · -- final serializer state
        rw [hs]
        show Serializer.mk _ _ _ _ = Serializer.mk _ _ _ _
        simp only [Serializer.mk.injEq]
        refine ⟨trivial, ?_, ?_, trivial⟩
        · show min s.frames.length _ = min s.frames.length _
          congr 1
          show (s.writePos + min (SIZE_PER_FRAME - (s.writePos - s.startPos) % SIZE_PER_FRAME) rem + outRest.length - s.startPos) / SIZE_PER_FRAME = _
          simp only [List.length_append, hout1]
          congr 1
          omega
        · show s.writePos + min (SIZE_PER_FRAME - (s.writePos - s.startPos) % SIZE_PER_FRAME) rem + outRest.length = s.writePos + _
          simp only [List.length_append, hout1]
          omega
      · -- remaining space
        rw [hr]
        simp only [List.length_append, hout1]
        omega
    · rename_i hguard
      simp only [Prod.mk.injEq] at h
      obtain ⟨h1, h2, h3⟩ := h
      subst h1; subst h2; subst h3
      have hout : (((s.frames.map slotBytes).flatten).drop
          (s.writePos - s.startPos)).take rem = [] := by
        rcases Decidable.not_and_iff_or_not.mp hguard with hg | hg
        · push_neg at hg
          have hge : s.frames.length ≤ (s.writePos - s.startPos) / SIZE_PER_FRAME := by
            rw [hfi] at hg
            rcases Nat.lt_or_ge ((s.writePos - s.startPos) / SIZE_PER_FRAME)
              s.frames.length with hlt | hge'
            · rw [Nat.min_eq_right (le_of_lt hlt)] at hg
              omega
            · exact hge'
          have hdrop : ((s.frames.map slotBytes).flatten).drop
              (s.writePos - s.startPos) = [] := by
            apply List.drop_eq_nil_of_le
            rw [slots_flatten_length]
            calc s.frames.length * SIZE_PER_FRAME
                ≤ ((s.writePos - s.startPos) / SIZE_PER_FRAME) * SIZE_PER_FRAME :=
                  Nat.mul_le_mul_right _ hge
              _ ≤ s.writePos - s.startPos := Nat.div_mul_le_self _ _
          rw [hdrop, List.take_nil]
        · push_neg at hg
          have : rem = 0 := by omega
          rw [this, List.take_zero]
      refine ⟨hout.symm, ?_, by simp⟩
      simp only [List.length_nil, Nat.add_zero, ← hfi]

theorem take_drop_congr (Y : List Nat) {a b r : Nat} (h : a = b ∨ r = 0) :
    (Y.drop a).take r = (Y.drop b).take r := by
  rcases h with h | h
  · rw [h]
  · rw [h, List.take_zero, List.take_zero]

theorem take_append_drop_take (l : List Nat) (k : Nat) :
    l.take k ++ l.drop (l.take k).length = l := by
  have h : l.take ((l.take k).length) = l.take k := by
    apply List.take_eq_take.mpr
    simp only [List.length_take]
    omega
  conv_rhs => rw [← List.take_append_drop ((l.take k).length) l]
  rw [h]

theorem writeTo_spec {s : Serializer} {bufLen : Nat} {out : List Nat} {s' : Serializer}
    (hfi : s.frameIndex = min s.frames.length ((s.writePos - s.startPos) / SIZE_PER_FRAME))
    (h : s.writeTo bufLen = (out, s')) :
    out = (s.stream.drop s.writePos).take bufLen ∧
    s' = { s with writePos := s.writePos + out.length, frameIndex := min s.frames.length ((s.writePos + out.length - s.startPos) / SIZE_PER_FRAME) } := by
  unfold Serializer.writeTo at h
  rcases e1 : writeHeader s bufLen with ⟨out1, s1, rem1⟩
  rw [e1] at h
  simp only [] at h
  obtain ⟨ho1, hs1, hr1⟩ := writeHeader_spec e1
  subst hs1
  have hn1 : out1.length = min bufLen (8 - s.writePos) := by
    rw [ho1]
    simp only [List.length_take, List.length_drop, headerBytes_length]
  have factA : 8 ≤ s.writePos + out1.length ∨ rem1 = 0 := by omega
  rcases e2 : writeHeadIntegrity { s with writePos := s.writePos + out1.length } rem1 with ⟨out2, s2, rem2⟩
  rw [e2] at h
  simp only [] at h
  obtain ⟨ho2, hs2, hr2⟩ := writeHeadIntegrity_spec (by exact factA) e2
  have Hs2 : s2 = { s with writePos := s.writePos + out1.length + out2.length } := hs2
  subst Hs2
  have Ho2 : out2 = ((if s.format = .head then s.makeIntegrity else []).drop (s.writePos + out1.length - SKIPPABLE_HEADER_SIZE)).take rem1 := ho2
  rcases e3 : writeFrames rem2 { s with writePos := s.writePos + out1.length + out2.length } rem2 with ⟨out3, s3, rem3⟩
  rw [e3] at h
  simp only [] at h
  cases hfmt : s.format with
  | foot =>
    have hsp : s.startPos = 8 := by
      simp only [Serializer.startPos, hfmt, SKIPPABLE_HEADER_SIZE, SEEK_TABLE_FOOTER_SIZE]
      rw [if_neg (by decide)]
    have hout2 : out2 = [] := by
      rw [Ho2, hfmt, if_neg (by decide)]
      simp
    subst hout2
    simp only [List.length_nil, Nat.add_zero] at e3 hr2 h ⊢
    have hrem2 : rem1 = rem2 := by omega
    subst hrem2
    have hfi2 : ({ s with writePos := s.writePos + out1.length } : Serializer).frameIndex = min ({ s with writePos := s.writePos + out1.length } : Serializer).frames.length ((({ s with writePos := s.writePos + out1.length } : Serializer).writePos - ({ s with writePos := s.writePos + out1.length } : Serializer).startPos) / SIZE_PER_FRAME) := by
      show s.frameIndex = min s.frames.length ((s.writePos + out1.length - s.startPos) / SIZE_PER_FRAME)
      rw [hfi]
      have hkey : s.writePos - s.startPos = s.writePos + out1.length - s.startPos := by
        rw [hsp]; omega
      rw [hkey]
    have hpre2 : ({ s with writePos := s.writePos + out1.length } : Serializer).startPos ≤ ({ s with writePos := s.writePos + out1.length } : Serializer).writePos ∨ rem1 = 0 := by
      show s.startPos ≤ s.writePos + out1.length ∨ rem1 = 0
      rw [hsp]; exact factA
    obtain ⟨ho3, hs3, hr3⟩ := writeFrames_spec rem1 _ rem1 out3 s3 rem3 le_rfl hfi2 hpre2 e3
    have Ho3 : out3 = (((s.frames.map slotBytes).flatten).drop (s.writePos + out1.length - s.startPos)).take rem1 := ho3
    have Hs3 : s3 = { s with writePos := s.writePos + out1.length + out3.length, frameIndex := min s.frames.length ((s.writePos + out1.length + out3.length - s.startPos) / SIZE_PER_FRAME) } := hs3
    subst Hs3
    have hn3 : out3.length = min rem1 (s.frames.length * SIZE_PER_FRAME - (s.writePos + out1.length - s.startPos)) := by
      rw [Ho3]
      simp only [List.length_take, List.length_drop, slots_flatten_length]
    rcases e4 : writeFootIntegrity { s with writePos := s.writePos + out1.length + out3.length, frameIndex := min s.frames.length ((s.writePos + out1.length + out3.length - s.startPos) / SIZE_PER_FRAME) } rem3 with ⟨out4, s4⟩
    rw [e4] at h
    simp only [] at h
    have hpre4 : SKIPPABLE_HEADER_SIZE + s.frames.length * SIZE_PER_FRAME ≤ s.writePos + out1.length + out3.length ∨ rem3 = 0 := by
      simp only [SKIPPABLE_HEADER_SIZE, SIZE_PER_FRAME] at *
      rw [hsp] at hn3
      omega
    obtain ⟨ho4, hs4⟩ := writeFootIntegrity_spec hpre4 e4
    have Ho4 : out4 = (((if s.format = .foot then s.makeIntegrity else []).drop (s.writePos + out1.length + out3.length - (SKIPPABLE_HEADER_SIZE + s.frames.length * SIZE_PER_FRAME))).take rem3) := ho4
    have Hs4 : s4 = { s with writePos := s.writePos + out1.length + out3.length + out4.length, frameIndex := min s.frames.length ((s.writePos + out1.length + out3.length - s.startPos) / SIZE_PER_FRAME) } := hs4
    subst Hs4
    have hn4 : out4.length = min rem3 (9 - (s.writePos + out1.length + out3.length - (8 + s.frames.length * 17))) := by
      rw [Ho4, hfmt, if_pos (by decide)]
      simp only [List.length_take, List.length_drop, makeIntegrity_length,
        SKIPPABLE_HEADER_SIZE, SIZE_PER_FRAME]
    simp only [Prod.mk.injEq] at h
    obtain ⟨hout, hs'⟩ := h
    have hcase : out4.length = 0 ∨ 8 + s.frames.length * 17 ≤ s.writePos + out1.length + out3.length := by
      simp only [SKIPPABLE_HEADER_SIZE, SIZE_PER_FRAME] at hpre4
      omega
    constructor
    · rw [← hout]
      have hstream : s.stream = s.headerBytes ++ ((s.frames.map slotBytes).flatten ++ s.makeIntegrity) := by
        simp [Serializer.stream, hfmt]
      rw [hstream, seg_split, ← ho1, headerBytes_length, List.append_nil,
        List.append_assoc]
      congr 1
      rw [← hr1, seg_split, ← hsp, ← Ho3]
      congr 1
      rw [Ho4, hfmt, if_pos (by decide), hr3, slots_flatten_length]
      apply take_drop_congr
      simp only [SIZE_PER_FRAME, SKIPPABLE_HEADER_SIZE] at *
      omega
    · rw [← hout, ← hs']
      congr 1
      · rw [hsp]
        simp only [List.length_append, List.length_nil, SIZE_PER_FRAME]
        omega
      · simp only [List.length_append, List.length_nil]
        omega
  | head =>
    have hsp : s.startPos = 17 := by
      simp only [Serializer.startPos, hfmt, SKIPPABLE_HEADER_SIZE, SEEK_TABLE_FOOTER_SIZE]
      rw [if_pos (by decide)]
    have hn2 : out2.length = min rem1 (9 - (s.writePos + out1.length - 8)) := by
      rw [Ho2, hfmt, if_pos (by decide)]
      simp only [List.length_take, List.length_drop, makeIntegrity_length,
        SKIPPABLE_HEADER_SIZE]
    have factB : 17 ≤ s.writePos + out1.length + out2.length ∨ rem2 = 0 := by omega
    have hfi2 : ({ s with writePos := s.writePos + out1.length + out2.length } : Serializer).frameIndex = min ({ s with writePos := s.writePos + out1.length + out2.length } : Serializer).frames.length ((({ s with writePos := s.writePos + out1.length + out2.length } : Serializer).writePos - ({ s with writePos := s.writePos + out1.length + out2.length } : Serializer).startPos) / SIZE_PER_FRAME) := by
      show s.frameIndex = min s.frames.length ((s.writePos + out1.length + out2.length - s.startPos) / SIZE_PER_FRAME)
      rw [hfi]
      have hkey : s.writePos - s.startPos = s.writePos + out1.length + out2.length - s.startPos := by
        rw [hsp]; omega
      rw [hkey]
    have hpre2 : ({ s with writePos := s.writePos + out1.length + out2.length } : Serializer).startPos ≤ ({ s with writePos := s.writePos + out1.length + out2.length } : Serializer).writePos ∨ rem2 = 0 := by
      show s.startPos ≤ s.writePos + out1.length + out2.length ∨ rem2 = 0
      rw [hsp]; exact factB
    obtain ⟨ho3, hs3, hr3⟩ := writeFrames_spec rem2 _ rem2 out3 s3 rem3 le_rfl hfi2 hpre2 e3
    have Ho3 : out3 = (((s.frames.map slotBytes).flatten).drop (s.writePos + out1.length + out2.length - s.startPos)).take rem2 := ho3
    have Hs3 : s3 = { s with writePos := s.writePos + out1.length + out2.length + out3.length, frameIndex := min s.frames.length ((s.writePos + out1.length + out2.length + out3.length - s.startPos) / SIZE_PER_FRAME) } := hs3
    subst Hs3
    have hn3 : out3.length = min rem2 (s.frames.length * SIZE_PER_FRAME - (s.writePos + out1.length + out2.length - s.startPos)) := by
      rw [Ho3]
      simp only [List.length_take, List.length_drop, slots_flatten_length]
    rcases e4 : writeFootIntegrity { s with writePos := s.writePos + out1.length + out2.length + out3.length, frameIndex := min s.frames.length ((s.writePos + out1.length + out2.length + out3.length - s.startPos) / SIZE_PER_FRAME) } rem3 with ⟨out4, s4⟩
    rw [e4] at h
    simp only [] at h
    have hpre4 : SKIPPABLE_HEADER_SIZE + s.frames.length * SIZE_PER_FRAME ≤ s.writePos + out1.length + out2.length + out3.length ∨ rem3 = 0 := by
      simp only [SKIPPABLE_HEADER_SIZE, SIZE_PER_FRAME] at *
      rw [hsp] at hn3
      omega
    obtain ⟨ho4, hs4⟩ := writeFootIntegrity_spec hpre4 e4
    have hout4 : out4 = [] := by
      have Ho4 : out4 = (((if s.format = .foot then s.makeIntegrity else []).drop (s.writePos + out1.length + out2.length + out3.length - (SKIPPABLE_HEADER_SIZE + s.frames.length * SIZE_PER_FRAME))).take rem3) := ho4
      rw [Ho4, hfmt, if_neg (by decide)]
      simp
    subst hout4
    have Hs4 : s4 = { s with writePos := s.writePos + out1.length + out2.length + out3.length, frameIndex := min s.frames.length ((s.writePos + out1.length + out2.length + out3.length - s.startPos) / SIZE_PER_FRAME) } := by
      have Hs4' : s4 = { s with writePos := s.writePos + out1.length + out2.length + out3.length + ([] : List Nat).length, frameIndex := min s.frames.length ((s.writePos + out1.length + out2.length + out3.length - s.startPos) / SIZE_PER_FRAME) } := hs4
      rw [Hs4']
      simp only [List.length_nil, Nat.add_zero]
    subst Hs4
    simp only [Prod.mk.injEq, List.append_nil] at h
    obtain ⟨hout, hs'⟩ := h
    constructor
    · rw [← hout]
      have hstream : s.stream = s.headerBytes ++ (s.makeIntegrity ++ (s.frames.map slotBytes).flatten) := by
        simp [Serializer.stream, hfmt]
      rw [hstream, seg_split, ← ho1, headerBytes_length, List.append_assoc]
      congr 1
      rw [← hr1, seg_split, makeIntegrity_length]
      have Ho2f : out2 = (s.makeIntegrity.drop (s.writePos + out1.length - 8)).take rem1 := by
        rw [Ho2, hfmt, if_pos (by decide)]
        simp only [SKIPPABLE_HEADER_SIZE]
      rw [← Ho2f]
      congr 1
      rw [← hr2, Ho3]
      apply take_drop_congr
      rw [hsp]
      omega
    · rw [← hout, ← hs']
      congr 1
      · simp only [List.length_append, SIZE_PER_FRAME]
        omega
      · simp only [List.length_append]
        omega

/-- The chunked-serialization driver from the spec: call `WriteTo` with a
`k`-byte scratch buffer until it reports `0` bytes written, concatenating
the chunks. -/
def writeToChunks : Nat → Serializer → Nat → List Nat
  | 0, _, _ => []
  | fuel + 1, s, k =>
    match s.writeTo k with
    | (out, s') => if out.length = 0 then [] else out ++ writeToChunks fuel s' k

theorem writeToChunks_eq : ∀ (fuel : Nat) (s : Serializer) (k : Nat), 1 ≤ k →
    s.frameIndex = min s.frames.length ((s.writePos - s.startPos) / SIZE_PER_FRAME) →
    s.encodedLen - s.writePos < fuel →
    writeToChunks fuel s k = s.stream.drop s.writePos := by
  intro fuel
  induction fuel with
  | zero =>
    intro s k hk hinv hf
    exact absurd hf (by omega)
  | succ fuel ih =>
    intro s k hk hinv hf
    have hsl := stream_length s
    simp only [writeToChunks]
    rcases e : s.writeTo k with ⟨o, s2⟩
    simp only []
    obtain ⟨ho, hs2⟩ := writeTo_spec hinv e
    have hol : o.length = min k (s.stream.length - s.writePos) := by
      rw [ho]
      simp only [List.length_take, List.length_drop]
    by_cases hz : o.length = 0
    · rw [if_pos hz]
      have hle : s.stream.length ≤ s.writePos := by omega
      rw [List.drop_eq_nil_of_le hle]
    · rw [if_neg hz]
      have hinv2 : s2.frameIndex = min s2.frames.length ((s2.writePos - s2.startPos) / SIZE_PER_FRAME) := by
        rw [hs2]; rfl
      have hstr2 : s2.stream = s.stream := by rw [hs2]; rfl
      have hel2 : s2.encodedLen = s.encodedLen := by rw [hs2]; rfl
      have hwp2 : s2.writePos = s.writePos + o.length := by rw [hs2]
      rw [ih s2 k hk hinv2 (by omega), hstr2, hwp2]
      have hdd : s.stream.drop (s.writePos + ((s.stream.drop s.writePos).take k).length) = (s.stream.drop s.writePos).drop (((s.stream.drop s.writePos).take k).length) := by
        rw [List.drop_drop, Nat.add_comm]
      rw [ho, hdd]
      exact take_append_drop_take _ k

/-- C8: for every seek table, every format, and every scratch-buffer size
`k ≥ 1`, repeatedly calling `WriteTo` with a `k`-byte buffer until it
returns `0` emits exactly the same byte sequence as a single `WriteTo`
with a buffer of length `EncodedLen`, for the same total byte count
`EncodedLen = 8 + 9 + 17·N`. -/
theorem chunked_writeTo_eq (st : SeekTable) (fmt : Format) (k : Nat) (hk : 1 ≤ k) :
    writeToChunks ((st.newSerializer fmt).encodedLen + 1) (st.newSerializer fmt) k =
      ((st.newSerializer fmt).writeTo (st.newSerializer fmt).encodedLen).1 ∧
    (writeToChunks ((st.newSerializer fmt).encodedLen + 1) (st.newSerializer fmt) k).length =
      (st.newSerializer fmt).encodedLen ∧
    (st.newSerializer fmt).encodedLen = 8 + 9 + 17 * (tableFrames st).length := by
  have hinv : (st.newSerializer fmt).frameIndex = min (st.newSerializer fmt).frames.length (((st.newSerializer fmt).writePos - (st.newSerializer fmt).startPos) / SIZE_PER_FRAME) := by
    show (0 : Nat) = min (tableFrames st).length ((0 - Serializer.startPos (st.newSerializer fmt)) / SIZE_PER_FRAME)
    simp
  have hchunk := writeToChunks_eq ((st.newSerializer fmt).encodedLen + 1)
    (st.newSerializer fmt) k hk hinv (by omega)
  rcases e : (st.newSerializer fmt).writeTo (st.newSerializer fmt).encodedLen with ⟨o, s1⟩
  obtain ⟨ho, hs1⟩ := writeTo_spec hinv e
  have hoc : o = (st.newSerializer fmt).stream := by
    rw [ho]
    show ((st.newSerializer fmt).stream.drop 0).take (st.newSerializer fmt).encodedLen = _
    rw [List.drop_zero, ← stream_length, List.take_length]
  refine ⟨?_, ?_, ?_⟩
  · rw [hchunk]
    show (st.newSerializer fmt).stream.drop 0 = o
    rw [List.drop_zero, hoc]
  · rw [hchunk]
    show ((st.newSerializer fmt).stream.drop 0).length = _
    rw [List.drop_zero, stream_length]
  · show SKIPPABLE_HEADER_SIZE + SEEK_TABLE_FOOTER_SIZE + (tableFrames st).length * SIZE_PER_FRAME = _
    simp only [SKIPPABLE_HEADER_SIZE, SEEK_TABLE_FOOTER_SIZE, SIZE_PER_FRAME]
    ring

/-- Witness for C8: chunk size `5` on the two-frame table `tbl2` with the
foot format. -/
theorem chunked_writeTo_eq_witness :
    (1 : Nat) ≤ 5 ∧
    writeToChunks ((tbl2.newSerializer .foot).encodedLen + 1) (tbl2.newSerializer .foot) 5 =
      ((tbl2.newSerializer .foot).writeTo (tbl2.newSerializer .foot).encodedLen).1 :=
  ⟨by decide, (chunked_writeTo_eq tbl2 .foot 5 (by decide)).1⟩

/-! ## Claim C1: serialize/parse roundtrip -/

/-- A table built by a sequence of `LogFrame` calls. -/
def buildTable (fs : List (Nat × Nat)) : Except Err SeekTable :=
  fs.foldlM (fun t p => t.logFrame p.1 p.2) newSeekTable

/-- The entries appended by successive `LogFrame` calls on top of `base`. -/
def extendEntries (base : Entry) : List (Nat × Nat) → List Entry
  | [] => []
  | p :: rest =>
    (⟨base.compressedOffset + p.1, base.decompressedOffset + p.2⟩ : Entry) ::
      extendEntries ⟨base.compressedOffset + p.1, base.decompressedOffset + p.2⟩ rest

theorem extendEntries_length (fs : List (Nat × Nat)) :
    ∀ base, (extendEntries base fs).length = fs.length := by
  induction fs with
  | nil => intro base; rfl
  | cons p rest ih =>
    intro base
    simp only [extendEntries, List.length_cons, ih]

theorem foldl_logFrame_spec :
    ∀ (fs : List (Nat × Nat)) (st0 st : SeekTable), TblInv st0 →
    (∀ p ∈ fs, p.1 < U32 ∧ p.2 < U32) →
    fs.foldlM (fun t p => t.logFrame p.1 p.2) st0 = .ok st →
    TblInv st ∧
    st.entries = st0.entries ++
      extendEntries (st0.entries.getD (st0.entries.length - 1) ⟨0, 0⟩) fs := by
  intro fs
  induction fs with
  | nil =>
    intro st0 st h0 _ hfold
    rw [List.foldlM_nil] at hfold
    have hfold' : (Except.ok st0 : Except Err SeekTable) = .ok st := hfold
    cases hfold'
    exact ⟨h0, by simp [extendEntries]⟩
  | cons p rest ih =>
    intro st0 st h0 hmem hfold
    rw [List.foldlM_cons] at hfold
    cases hl : st0.logFrame p.1 p.2 with
    | error e =>
      rw [hl] at hfold
      have hfold' : (Except.error e : Except Err SeekTable) = .ok st := hfold
      exact absurd hfold' (by simp)
    | ok st1 =>
      rw [hl] at hfold
      have hfold' : rest.foldlM (fun t p => t.logFrame p.1 p.2) st1 = .ok st := hfold
      obtain ⟨h1, hentries⟩ :=
        logFrame_TblInv (hmem p (by simp)).1 (hmem p (by simp)).2 h0 hl
      obtain ⟨h2, hent2⟩ := ih st1 st h1 (fun q hq => hmem q (by simp [hq])) hfold'
      refine ⟨h2, ?_⟩
      rw [hent2, hentries]
      have hlast : (st0.entries ++
          [(⟨(st0.entries.getD (st0.entries.length - 1) ⟨0, 0⟩).compressedOffset + p.1,
             (st0.entries.getD (st0.entries.length - 1) ⟨0, 0⟩).decompressedOffset + p.2⟩ : Entry)]).getD
          ((st0.entries ++ [(⟨(st0.entries.getD (st0.entries.length - 1) ⟨0, 0⟩).compressedOffset + p.1, (st0.entries.getD (st0.entries.length - 1) ⟨0, 0⟩).decompressedOffset + p.2⟩ : Entry)]).length - 1) ⟨0, 0⟩ =
          (⟨(st0.entries.getD (st0.entries.length - 1) ⟨0, 0⟩).compressedOffset + p.1,
            (st0.entries.getD (st0.entries.length - 1) ⟨0, 0⟩).decompressedOffset + p.2⟩ : Entry) := by
        rw [List.length_append, List.length_singleton]
        rw [List.getD_append_right _ _ _ _ (by omega)]
        have hz : st0.entries.length + 1 - 1 - st0.entries.length = 0 := by omega
        rw [hz, List.getD_cons_zero]
      rw [hlast]
      rw [List.append_assoc, List.singleton_append]
      rfl

theorem buildTable_spec {fs : List (Nat × Nat)} {st : SeekTable}
    (hmem : ∀ p ∈ fs, p.1 < U32 ∧ p.2 < U32)
    (hb : buildTable fs = .ok st) :
    TblInv st ∧ st.entries = ⟨0, 0⟩ :: extendEntries ⟨0, 0⟩ fs := by
  obtain ⟨hinv, hent⟩ := foldl_logFrame_spec fs newSeekTable st TblInv_new hmem hb
  refine ⟨hinv, ?_⟩
  rw [hent]
  rfl

theorem cons_extend_getD :
    ∀ (fs : List (Nat × Nat)) (base : Entry) (i : Nat), i < fs.length →
    (base :: extendEntries base fs).getD (i + 1) ⟨0, 0⟩ =
      ⟨((base :: extendEntries base fs).getD i ⟨0, 0⟩).compressedOffset +
          (fs.getD i (0, 0)).1,
       ((base :: extendEntries base fs).getD i ⟨0, 0⟩).decompressedOffset +
          (fs.getD i (0, 0)).2⟩ := by
  intro fs
  induction fs with
  | nil => intro base i hi; simp at hi
  | cons p rest ih =>
    intro base i hi
    cases i with
    | zero =>
      simp only [extendEntries, List.getD_cons_succ, List.getD_cons_zero]
    | succ i =>
      have hi' : i < rest.length := by
        simp only [List.length_cons] at hi
        omega
      simp only [extendEntries, List.getD_cons_succ]
      exact ih _ i hi'

theorem tableFrames_buildTable {fs : List (Nat × Nat)} {st : SeekTable}
    (hmem : ∀ p ∈ fs, p.1 < U32 ∧ p.2 < U32)
    (hEnt : st.entries = ⟨0, 0⟩ :: extendEntries ⟨0, 0⟩ fs)
    (hinv : TblInv st) :
    tableFrames st = fs.map (fun p => (⟨p.1, p.2⟩ : Frame)) := by
  obtain ⟨hne, hlenM, hhead, habs, hadj⟩ := hinv
  have hlen : st.entries.length = fs.length + 1 := by
    rw [hEnt]
    simp [extendEntries_length]
  apply List.ext_getElem
  · simp [tableFrames, hlen]
  · intro i h1 h2
    have hif : i < fs.length := by
      simp only [List.length_map] at h2
      exact h2
    simp only [tableFrames, List.getElem_map, List.getElem_range]
    have hstep : st.entries.getD (i + 1) ⟨0, 0⟩ =
        ⟨(st.entries.getD i ⟨0, 0⟩).compressedOffset + (fs.getD i (0, 0)).1,
         (st.entries.getD i ⟨0, 0⟩).decompressedOffset + (fs.getD i (0, 0)).2⟩ := by
      rw [hEnt]
      exact cons_extend_getD fs ⟨0, 0⟩ i hif
    have hiM : i + 1 ≤ SEEKABLE_MAX_FRAMES + 1 := by omega
    have hcU : (st.entries.getD (i + 1) ⟨0, 0⟩).compressedOffset < U64 := by
      calc (st.entries.getD (i + 1) ⟨0, 0⟩).compressedOffset
          ≤ (i + 1) * (U32 - 1) := (habs (i + 1) (by omega)).1
        _ ≤ (SEEKABLE_MAX_FRAMES + 1) * (U32 - 1) := Nat.mul_le_mul_right _ hiM
        _ < U64 := by decide
    have hdU : (st.entries.getD (i + 1) ⟨0, 0⟩).decompressedOffset < U64 := by
      calc (st.entries.getD (i + 1) ⟨0, 0⟩).decompressedOffset
          ≤ (i + 1) * (U32 - 1) := (habs (i + 1) (by omega)).2
        _ ≤ (SEEKABLE_MAX_FRAMES + 1) * (U32 - 1) := Nat.mul_le_mul_right _ hiM
        _ < U64 := by decide
    have hmemi := hmem (fs.getD i (0, 0)) (by
      rw [List.getD_eq_getElem _ _ hif]
      exact fs.getElem_mem hif)
    rw [wsub64_eq (by rw [hstep]; exact Nat.le_add_right _ _) hcU,
        wsub64_eq (by rw [hstep]; exact Nat.le_add_right _ _) hdU]
    rw [hstep]
    simp only [Nat.add_sub_cancel_left]
    rw [Nat.mod_eq_of_lt hmemi.1, Nat.mod_eq_of_lt hmemi.2]
    rw [List.getD_eq_getElem _ _ hif]

theorem get32_le32_append (x : Nat) (l : List Nat) :
    get32 (le32 x ++ l) = x % U32 := by
  rw [get32_append (le32 x) l (le32_length x), get32_le32]

theorem tableFrames_sizes (st : SeekTable) :
    ∀ f ∈ tableFrames st, f.compressedSize < U32 ∧ f.decompressedSize < U32 := by
  intro f hf
  simp only [tableFrames, List.mem_map, List.mem_range] at hf
  obtain ⟨i, -, hf⟩ := hf
  subst hf
  exact ⟨Nat.mod_lt _ (by decide), Nat.mod_lt _ (by decide)⟩

theorem parseFrames_slots :
    ∀ (fl : List Frame) (pre post : List Nat) (acc : SeekTable),
    (∀ f ∈ fl, f.compressedSize < U32 ∧ f.decompressedSize < U32) →
    parseFrames (pre ++ ((fl.map slotBytes).flatten ++ post)) pre.length fl.length acc =
      fl.foldlM (fun t f => t.logFrame f.compressedSize f.decompressedSize) acc := by
  intro fl
  induction fl with
  | nil =>
    intro pre post acc _
    rfl
  | cons f fl' ih =>
    intro pre post acc hmem
    rw [List.foldlM_cons]
    show parseFrames (pre ++ ((slotBytes f ++ (fl'.map slotBytes).flatten) ++ post))
      pre.length (fl'.length + 1) acc = _
    simp only [parseFrames]
    have hd0 : (pre ++ ((slotBytes f ++ (fl'.map slotBytes).flatten) ++ post)).drop pre.length =
        le32 f.compressedSize ++ (le32 f.decompressedSize ++
          (List.replicate 9 0 ++ ((fl'.map slotBytes).flatten ++ post))) := by
      have h := List.drop_left pre ((slotBytes f ++ (fl'.map slotBytes).flatten) ++ post)
      rw [h]
      simp [slotBytes, List.append_assoc]
    have hd4 : (pre ++ ((slotBytes f ++ (fl'.map slotBytes).flatten) ++ post)).drop (pre.length + 4) =
        le32 f.decompressedSize ++
          (List.replicate 9 0 ++ ((fl'.map slotBytes).flatten ++ post)) := by
      rw [List.drop_append]
      have : ((slotBytes f ++ (fl'.map slotBytes).flatten) ++ post) =
          le32 f.compressedSize ++ (le32 f.decompressedSize ++
            (List.replicate 9 0 ++ ((fl'.map slotBytes).flatten ++ post))) := by
        simp [slotBytes, List.append_assoc]
      rw [this]
      rfl
    rw [hd0, hd4, get32_le32_append, get32_le32_append,
      Nat.mod_eq_of_lt (hmem f (by simp)).1, Nat.mod_eq_of_lt (hmem f (by simp)).2]
    cases hl : acc.logFrame f.compressedSize f.decompressedSize with
    | error e => rfl
    | ok st1 =>
      show parseFrames (pre ++ ((slotBytes f ++ (fl'.map slotBytes).flatten) ++ post))
          (pre.length + SIZE_PER_FRAME) fl'.length st1 =
        fl'.foldlM (fun t f => t.logFrame f.compressedSize f.decompressedSize) st1
      rw [show pre ++ ((slotBytes f ++ (fl'.map slotBytes).flatten) ++ post) =
          (pre ++ slotBytes f) ++ ((fl'.map slotBytes).flatten ++ post) from by
        simp [List.append_assoc]]
      rw [show pre.length + SIZE_PER_FRAME = (pre ++ slotBytes f).length from by
        simp [SIZE_PER_FRAME]]
      exact ih (pre ++ slotBytes f) post st1 (fun q hq => hmem q (by simp [hq]))

theorem parse_foot (s : Serializer) (hfmt : s.format = .foot)
    (hN : s.frames.length ≤ SEEKABLE_MAX_FRAMES) :
    parseSeekTable s.stream =
      parseFrames s.stream SKIPPABLE_HEADER_SIZE s.frames.length newSeekTable := by
  have hstream : s.stream = s.headerBytes ++
      ((s.frames.map slotBytes).flatten ++ s.makeIntegrity) := by
    simp [Serializer.stream, hfmt]
  have hNU : s.frames.length < U32 := by
    simp only [SEEKABLE_MAX_FRAMES] at hN
    simp only [U32]
    omega
  have hlen : s.stream.length = 8 + (s.frames.length * 17 + 9) := by
    rw [stream_length]
    simp only [Serializer.encodedLen, SKIPPABLE_HEADER_SIZE, SEEK_TABLE_FOOTER_SIZE,
      SIZE_PER_FRAME]
    omega
  have hfoot : s.stream.drop (s.stream.length - SEEK_TABLE_FOOTER_SIZE) =
      s.makeIntegrity := by
    rw [show s.stream.length - SEEK_TABLE_FOOTER_SIZE =
        s.headerBytes.length + (((s.frames.map slotBytes).flatten).length + 0) from by
      rw [headerBytes_length, slots_flatten_length]
      simp only [SIZE_PER_FRAME, SEEK_TABLE_FOOTER_SIZE]
      omega]
    rw [hstream, List.drop_append, List.drop_append, List.drop_zero]
  have hfootmagic : get32 (s.makeIntegrity.drop 5) = SEEKABLE_MAGIC_NUMBER := by
    show get32 (le32 SEEKABLE_MAGIC_NUMBER) = _
    rw [get32_le32_of_lt (by decide)]
  have hfootN : get32 s.makeIntegrity = s.frames.length := by
    show get32 (le32 (s.frames.length % U32) ++ ([0] ++ le32 SEEKABLE_MAGIC_NUMBER)) = _
    rw [get32_le32_append]
    simp only [U32] at hNU ⊢
    omega
  have hskipmagic : get32 s.stream = SKIPPABLE_MAGIC_NUMBER := by
    rw [hstream]
    rw [show s.headerBytes = le32 SKIPPABLE_MAGIC_NUMBER ++ le32 (s.frameSize % U32)
      from rfl]
    rw [List.append_assoc, get32_le32_append]
    simp only [SKIPPABLE_MAGIC_NUMBER, U32]
  simp only [parseSeekTable]
  rw [if_neg (by simp only [SEEK_TABLE_FOOTER_SIZE]; omega)]
  rw [hfoot, hfootmagic]
  rw [if_neg (by simp)]
  rw [hfootN]
  rw [if_neg (by omega)]
  rw [if_neg (by
    simp only [SKIPPABLE_HEADER_SIZE, SEEK_TABLE_FOOTER_SIZE, SIZE_PER_FRAME]
    omega)]
  rw [hskipmagic]
  rw [if_neg (by simp)]
  rcases Nat.eq_zero_or_pos s.frames.length with h0 | hpos
  · rw [if_neg (by
      simp only [SKIPPABLE_HEADER_SIZE, SEEK_TABLE_FOOTER_SIZE]
      omega)]
  · cases hfl : s.frames with
    | nil => rw [hfl] at hpos; simp at hpos
    | cons f0 fl' =>
      have h13 : s.stream.drop (SKIPPABLE_HEADER_SIZE + 5) =
          f0.decompressedSize / 256 % 256 :: (f0.decompressedSize / 65536 % 256 ::
            (f0.decompressedSize / 16777216 % 256 :: (List.replicate 9 0 ++
              ((fl'.map slotBytes).flatten ++ s.makeIntegrity)))) := by
        conv_lhs => rw [hstream, hfl]
        rfl
      have hg13 : get32 (s.stream.drop (SKIPPABLE_HEADER_SIZE + 5)) ≠
          SEEKABLE_MAGIC_NUMBER := by
        rw [h13]
        show f0.decompressedSize / 256 % 256 +
            256 * (f0.decompressedSize / 65536 % 256) +
            65536 * (f0.decompressedSize / 16777216 % 256) + 16777216 * 0 ≠ _
        simp only [SEEKABLE_MAGIC_NUMBER]
        omega
      rw [if_neg (fun hand => hg13 hand.2)]

theorem parse_head_fail (s : Serializer) (hfmt : s.format = .head)
    (hne : s.frames ≠ []) :
    parseSeekTable s.stream = .error .invalidMagic := by
  have hstream : s.stream = s.headerBytes ++
      (s.makeIntegrity ++ (s.frames.map slotBytes).flatten) := by
    simp [Serializer.stream, hfmt]
  rcases s.frames.eq_nil_or_concat with h | ⟨L, b, hLb⟩
  · exact absurd h hne
  · have hLb' : s.frames = L ++ [b] := by
      simpa [List.concat_eq_append] using hLb
    have hlen : s.stream.length = 8 + 9 + (L.length * 17 + 17) := by
      rw [stream_length]
      simp only [Serializer.encodedLen, SKIPPABLE_HEADER_SIZE, SEEK_TABLE_FOOTER_SIZE,
        SIZE_PER_FRAME, hLb', List.length_append, List.length_cons, List.length_nil]
      omega
    have hfoot : s.stream.drop (s.stream.length - SEEK_TABLE_FOOTER_SIZE) =
        List.replicate 9 0 := by
      rw [show s.stream.length - SEEK_TABLE_FOOTER_SIZE =
          s.headerBytes.length + (s.makeIntegrity.length +
            ((((L.map slotBytes).flatten).length + 8))) from by
        rw [headerBytes_length, makeIntegrity_length, slots_flatten_length]
        simp only [SIZE_PER_FRAME, SEEK_TABLE_FOOTER_SIZE]
        omega]
      rw [hstream, hLb', List.drop_append, List.drop_append, List.map_append,
        List.flatten_append, List.drop_append]
      rfl
    simp only [parseSeekTable]
    rw [if_neg (by simp only [SEEK_TABLE_FOOTER_SIZE]; omega)]
    rw [hfoot]
    rw [if_pos (by decide)]

theorem newSerializer_writeTo_full (st : SeekTable) (fmt : Format) :
    ((st.newSerializer fmt).writeTo (st.newSerializer fmt).encodedLen).1 =
      (st.newSerializer fmt).stream := by
  rcases e : (st.newSerializer fmt).writeTo (st.newSerializer fmt).encodedLen with ⟨o, s1⟩
  obtain ⟨ho, -⟩ := writeTo_spec (by
    show (0 : Nat) = min (tableFrames st).length
      ((0 - Serializer.startPos (st.newSerializer fmt)) / SIZE_PER_FRAME)
    simp) e
  show o = _
  rw [ho]
  show ((st.newSerializer fmt).stream.drop 0).take (st.newSerializer fmt).encodedLen = _
  rw [List.drop_zero, ← stream_length, List.take_length]

/-- Counterexample for C1 as stated: a table built by one successful
`LogFrame` call serialized with the `Head` format does not parse back;
`ParseSeekTable` reads its integrity record from the last 9 bytes, which in
the `Head` layout are the zero padding of the final index slot, so parsing
fails with `InvalidMagic`. -/
theorem head_roundtrip_cx :
    buildTable [(1000, 2000)] = .ok (⟨[⟨0, 0⟩, ⟨1000, 2000⟩]⟩ : SeekTable) ∧
    parseSeekTable (((⟨[⟨0, 0⟩, ⟨1000, 2000⟩]⟩ : SeekTable).newSerializer .head).writeTo
        ((⟨[⟨0, 0⟩, ⟨1000, 2000⟩]⟩ : SeekTable).newSerializer .head).encodedLen).1 =
      .error .invalidMagic :=
  ⟨rfl, rfl⟩

/-- **C1** (amended). For every seek table built by successful `log_frame`
calls with `uint32` sizes, serializing with the `Foot` format and parsing
yields the table back; with the `Head` format the roundtrip holds only for
the empty table, and for one or more frames parsing the serialized bytes
fails with `InvalidMagic` (the parser expects the integrity record in the
last 9 bytes, where the `Head` layout stores slot padding zeros). -/
theorem serialize_parse_roundtrip (fs : List (Nat × Nat)) (st : SeekTable)
    (hmem : ∀ p ∈ fs, p.1 < U32 ∧ p.2 < U32)
    (hb : buildTable fs = .ok st) :
    parseSeekTable ((st.newSerializer .foot).writeTo
        (st.newSerializer .foot).encodedLen).1 = .ok st ∧
    (fs = [] → parseSeekTable ((st.newSerializer .head).writeTo
        (st.newSerializer .head).encodedLen).1 = .ok st) ∧
    (fs ≠ [] → parseSeekTable ((st.newSerializer .head).writeTo
        (st.newSerializer .head).encodedLen).1 = .error .invalidMagic) := by
  obtain ⟨hinv, hEnt⟩ := buildTable_spec hmem hb
  have hTF : tableFrames st = fs.map (fun p => (⟨p.1, p.2⟩ : Frame)) :=
    tableFrames_buildTable hmem hEnt hinv
  have hlenE : st.entries.length = fs.length + 1 := by
    rw [hEnt]
    simp [extendEntries_length]
  have hMAX : (tableFrames st).length ≤ SEEKABLE_MAX_FRAMES := by
    obtain ⟨-, hl, -, -, -⟩ := hinv
    have : (tableFrames st).length = st.entries.length - 1 := by
      simp [tableFrames]
    omega
  refine ⟨?_, ?_, ?_⟩
  · rw [newSerializer_writeTo_full]
    rw [parse_foot _ rfl hMAX]
    have hsF : (st.newSerializer Format.foot).stream =
        (st.newSerializer Format.foot).headerBytes ++
        ((((st.newSerializer Format.foot).frames).map slotBytes).flatten ++
          (st.newSerializer Format.foot).makeIntegrity) := by
      simp [Serializer.stream, SeekTable.newSerializer]
    rw [hsF]
    rw [show SKIPPABLE_HEADER_SIZE =
      (st.newSerializer Format.foot).headerBytes.length from rfl]
    rw [parseFrames_slots ((st.newSerializer Format.foot).frames) _ _ newSeekTable
      (tableFrames_sizes st)]
    rw [show (st.newSerializer Format.foot).frames = tableFrames st from rfl, hTF,
      List.foldlM_map]
    exact hb
  · intro h0
    subst h0
    have hst : st = newSeekTable := by
      have h' : (Except.ok newSeekTable : Except Err SeekTable) = .ok st := hb
      injection h' with h''
      exact h''.symm
    subst hst
    rfl
  · intro hne
    rw [newSerializer_writeTo_full]
    apply parse_head_fail _ rfl
    rw [show (st.newSerializer Format.head).frames = tableFrames st from rfl, hTF]
    simp [hne]

/-- Witness for C1: the single-frame table `(3, 4)` roundtrips through the
`Foot` format. -/
theorem serialize_parse_roundtrip_witness :
    (∀ p ∈ [((3 : Nat), (4 : Nat))], p.1 < U32 ∧ p.2 < U32) ∧
    parseSeekTable (((⟨[⟨0, 0⟩, ⟨3, 4⟩]⟩ : SeekTable).newSerializer .foot).writeTo
        ((⟨[⟨0, 0⟩, ⟨3, 4⟩]⟩ : SeekTable).newSerializer .foot).encodedLen).1 =
      .ok ⟨[⟨0, 0⟩, ⟨3, 4⟩]⟩ :=
  ⟨by decide,
   (serialize_parse_roundtrip [(3, 4)] ⟨[⟨0, 0⟩, ⟨3, 4⟩]⟩ (by decide) rfl).1⟩

end GZstd
